import Mathlib

/-
Verification of the interval timeline model of the hdf5_viewer annotation
tool, as implemented in src/src/ui/timeline_widget.py.

The embedding below mirrors the Python code:

* `TimeWindow` is one entry of `TimelineWidget.time_windows`, the list
  `[start, end, description]` (the field `end` is called `stop` here because
  `end` is a Lean keyword).
* `validate_time_windows` mirrors `TimelineWidget.validate_time_windows`
  (timeline_widget.py lines 2471-2519), including its Chinese error strings.
* `adjust_window_boundaries_smart` mirrors
  `TimelineBar.adjust_window_boundaries_smart` (lines 1020-1139).
* `apply_drag` mirrors one drag step of `TimelineBar.mouseMoveEvent`
  (lines 750-788) followed by the release synchronisation
  `sync_segments_to_time_windows` (lines 898-928), projected onto the
  window list (the adjuster's `update_segment_boundaries` side effect on the
  segment list is dropped there).
* `apply_drag_state` models the same drag step in full: the state pairs
  `time_windows` with the annotation segments in creation order, and
  `adjust_window_boundaries_smart_full` carries the adjuster's
  `update_segment_boundaries` write (lines 1122, 1136 and 1141-1173) onto
  that segment list. `add_window_state` is `add_time_window` together with
  `create_window_segment` (lines 2198-2199, 2263-2284), which appends one
  annotation segment per added window.
* `add_time_window` mirrors `TimelineWidget.add_time_window`
  (lines 2136-2206) with its helpers.
* `save_annotations` mirrors `TimelineWidget.save_annotations`
  (lines 2341-2399); the HDF5 model and the phrase translation table are
  external collaborators and enter as function parameters.
* `clear_timeline_annotations` mirrors
  `TimelineWidget.clear_timeline_annotations` (lines 2401-2437).

Python's `sorted`/`list.sort` is a stable sort; `List.insertionSort` with a
`≤` comparison on the sort key is also stable, hence extensionally identical.
-/

/-- One entry of `time_windows`: the Python list `[start, end, description]`.
The Python `end` field is named `stop` (`end` is a Lean keyword). -/
structure TimeWindow where
  start : Int
  stop : Int
  desc : String
deriving DecidableEq, Repr

/-- Comparison used by `sorted(self.time_windows, key=lambda x: x[0])`. -/
def winStartLE (a b : TimeWindow) : Prop := a.start ≤ b.start

instance : DecidableRel winStartLE := fun a b => Int.decLe a.start b.start

instance : IsTotal TimeWindow winStartLE := ⟨fun a b => Int.le_total a.start b.start⟩

instance : IsTrans TimeWindow winStartLE := ⟨fun _ _ _ h1 h2 => le_trans h1 h2⟩

/-- Comparison used by `sorted(self.time_windows, key=lambda w: w[1])`. -/
def winStopLE (a b : TimeWindow) : Prop := a.stop ≤ b.stop

instance : DecidableRel winStopLE := fun a b => Int.decLe a.stop b.stop

instance : IsTotal TimeWindow winStopLE := ⟨fun a b => Int.le_total a.stop b.stop⟩

instance : IsTrans TimeWindow winStopLE := ⟨fun _ _ _ h1 h2 => le_trans h1 h2⟩

/-- Comparison used by `sorted(enumerate(...), key=lambda x: x[1][0])` in
`adjust_window_boundaries_smart`. -/
def startOrder (a b : Nat × TimeWindow) : Prop := a.2.start ≤ b.2.start

instance : DecidableRel startOrder := fun a b => Int.decLe a.2.start b.2.start

instance : IsTotal (Nat × TimeWindow) startOrder := ⟨fun a b => Int.le_total a.2.start b.2.start⟩

instance : IsTrans (Nat × TimeWindow) startOrder := ⟨fun _ _ _ h1 h2 => le_trans h1 h2⟩

/-- Two windows do not intersect: `end_i < start_j or start_i > end_j`
(the form used by `check_window_overlap`, lines 2255-2261). -/
def winDisjoint (a b : TimeWindow) : Prop := a.stop < b.start ∨ b.stop < a.start

instance : DecidableRel winDisjoint := fun a b =>
  inferInstanceAs (Decidable (a.stop < b.start ∨ b.stop < a.start))

/- ------------------------------------------------------------------ -/
/- Validator (validate_time_windows, lines 2471-2519)                   -/
/- ------------------------------------------------------------------ -/

/-- The `for i in range(len(sorted_windows))` loop of `validate_time_windows`
(lines 2496-2512): per-window start/end sanity, then overlap, then gap, in
this order, returning the first error message; `none` means the loop passed.
The counter `i` carries the 1-based numbering used in the messages. -/
def windowsChainCheck : List TimeWindow → Nat → Option String
  | [], _ => none
  | [w], i =>
    if w.start > w.stop then
      some ("时间窗口" ++ toString (i + 1) ++ "的起始帧(" ++ toString w.start ++
        ")大于结束帧(" ++ toString w.stop ++ ")")
    else none
  | w :: w2 :: rest, i =>
    if w.start > w.stop then
      some ("时间窗口" ++ toString (i + 1) ++ "的起始帧(" ++ toString w.start ++
        ")大于结束帧(" ++ toString w.stop ++ ")")
    else if w.stop ≥ w2.start then
      some ("时间窗口" ++ toString (i + 1) ++ "(" ++ toString w.start ++ "-" ++
        toString w.stop ++ ")与时间窗口" ++ toString (i + 2) ++ "(" ++ toString w2.start ++
        "-" ++ toString w2.stop ++ ")重合")
    else if w.stop + 1 ≠ w2.start then
      some ("时间窗口" ++ toString (i + 1) ++ "(" ++ toString w.start ++ "-" ++
        toString w.stop ++ ")与时间窗口" ++ toString (i + 2) ++ "(" ++ toString w2.start ++
        "-" ++ toString w2.stop ++ ")不相连，中间有间隙")
    else windowsChainCheck (w2 :: rest) (i + 1)

/-- `TimelineWidget.validate_time_windows` (lines 2471-2519): empty check,
sort by start, first-start check, last-end check, chain loop, duplicate
check, in the source's order, returning `(is_valid, error_message)`. -/
def validate_time_windows (tws : List TimeWindow) (total_frames : Int) : Bool × String :=
  match List.insertionSort winStartLE tws with
  | [] => (false, "没有时间窗口需要保存")
  | w0 :: rest =>
    if w0.start ≠ 0 then
      (false, "时间窗口必须从第0帧开始，当前从第" ++ toString w0.start ++ "帧开始")
    else
      let wl := List.getLast (w0 :: rest) (List.cons_ne_nil w0 rest)
      if wl.stop ≠ total_frames - 1 then
        (false, "时间窗口必须覆盖到最后一帧(" ++ toString (total_frames - 1) ++
          ")，当前到第" ++ toString wl.stop ++ "帧")
      else
        match windowsChainCheck (w0 :: rest) 0 with
        | some msg => (false, msg)
        | none =>
          if ¬ (tws.map (fun w => (w.start, w.stop))).Nodup then
            (false, "存在重复的时间窗口")
          else (true, "验证通过")

/-- Whether the character list starts with the pattern. -/
def leadMatch : List Char → List Char → Bool
  | _, [] => true
  | [], _ :: _ => false
  | c :: cs, p :: ps => c == p && leadMatch cs ps

/-- Whether the pattern occurs contiguously in the character list. -/
def containsSeq : List Char → List Char → Bool
  | [], p => p.isEmpty
  | c :: cs, p => leadMatch (c :: cs) p || containsSeq cs p

/-- A message references a token when the token occurs in it as a substring. -/
def strMentions (s pat : String) : Bool := containsSeq s.toList pat.toList

/- ------------------------------------------------------------------ -/
/- BoundaryAdjuster (adjust_window_boundaries_smart, lines 1020-1139)   -/
/- ------------------------------------------------------------------ -/

/-- The three `operation_type` strings accepted by
`adjust_window_boundaries_smart`. -/
inductive OpType where
  | move
  | resize_left
  | resize_right
deriving DecidableEq, Repr

/-- `TimelineBar.adjust_window_boundaries_smart` (lines 1020-1139).
The dragged segment enters only through its `subtask` string (line 1040);
the current window is the first `time_windows` entry whose description
equals it (lines 1043-1046). Neighbours come from the stable sort of
`enumerate(time_windows)` by start (line 1055). Returns the adjusted
`(new_start, new_end)` together with the (possibly mutated) window list.
In the `resize_left`/`resize_right` branches the code reassigns
`new_start`/`new_end` before writing the neighbour entry (lines 1116-1118 and
1130-1132), which is mirrored here exactly. -/
def adjust_window_boundaries_smart (tws : List TimeWindow) (total_frames : Int)
    (subtask : String) (new_start new_end : Int) (op : OpType) :
    (Int × Int) × List TimeWindow :=
  match tws.findIdx? (fun w => w.desc == subtask) with
  | none => ((new_start, new_end), tws)
  | some ci =>
    let sorted_windows := List.insertionSort startOrder tws.enum
    match sorted_windows.findIdx? (fun p => p.1 == ci) with
    | none => ((new_start, new_end), tws)
    | some csi =>
      let prev? := if 0 < csi then sorted_windows[csi - 1]? else none
      let next? := sorted_windows[csi + 1]?
      match op with
      | OpType.move =>
        let window_width := new_end - new_start + 1
        let p1 : Int × Int :=
          match prev? with
          | some pv =>
            if new_start ≤ pv.2.stop then (pv.2.stop + 1, pv.2.stop + 1 + window_width - 1)
            else (new_start, new_end)
          | none => (new_start, new_end)
        let p2 : Int × Int :=
          match next? with
          | some nx =>
            if p1.2 ≥ nx.2.start then (nx.2.start - 1 - window_width + 1, nx.2.start - 1)
            else p1
          | none => p1
        let p3 : Int × Int := if p2.1 < 0 then (0, window_width - 1) else p2
        let p4 : Int × Int :=
          if p3.2 ≥ total_frames then (total_frames - 1 - window_width + 1, total_frames - 1)
          else p3
        (p4, tws)
      | OpType.resize_left =>
        match prev? with
        | some pv =>
          if new_start ≤ pv.2.stop then
            let ns := pv.2.stop + 1
            ((ns, new_end), tws.set pv.1 ⟨pv.2.start, ns - 1, pv.2.desc⟩)
          else ((new_start, new_end), tws)
        | none => ((new_start, new_end), tws)
      | OpType.resize_right =>
        match next? with
        | some nx =>
          if new_end ≥ nx.2.start then
            let ne := nx.2.start - 1
            ((new_start, ne), tws.set nx.1 ⟨ne + 1, nx.2.stop, nx.2.desc⟩)
          else ((new_start, new_end), tws)
        | none => ((new_start, new_end), tws)

/- ------------------------------------------------------------------ -/
/- Drag steps (mouseMoveEvent lines 750-788, release sync 861-928)      -/
/- ------------------------------------------------------------------ -/

/-- A drag gesture on the window at a given list index: the `drag_mode`
together with the caller-side input (`delta` for move, the current mouse
frame for the resize modes). -/
inductive DragOp where
  | move (delta : Int)
  | rleft (cf : Int)
  | rright (cf : Int)
deriving DecidableEq, Repr

/-- `sync_segments_to_time_windows` (lines 898-928): rebuild `time_windows`
from the segments sorted by start. -/
def sync_windows (ws : List TimeWindow) : List TimeWindow :=
  List.insertionSort winStartLE ws

/-- One complete drag of the window at index `i`: the corresponding branch of
`mouseMoveEvent` (lines 750-788) computes the proposed extent, calls the
boundary adjuster, stores the adjusted extent into the dragged segment, and
the release handler (lines 861-928) synchronises `time_windows` from the
segments. Segments are assumed to mirror `time_windows` entry by entry. -/
def apply_drag (tws : List TimeWindow) (total_frames : Int) (i : Nat) (op : DragOp) :
    List TimeWindow :=
  match tws[i]? with
  | none => tws
  | some w =>
    match op with
    | DragOp.move delta =>
      let ns := max 0 (w.start + delta)
      let ne := min (total_frames - 1) (w.stop + delta)
      if ne - ns = w.stop - w.start then
        let r := adjust_window_boundaries_smart tws total_frames w.desc ns ne OpType.move
        sync_windows (r.2.set i ⟨r.1.1, r.1.2, w.desc⟩)
      else tws
    | DragOp.rleft cf =>
      let ns := max 0 (min cf (w.stop - 1))
      let r := adjust_window_boundaries_smart tws total_frames w.desc ns w.stop OpType.resize_left
      sync_windows (r.2.set i ⟨r.1.1, r.1.2, w.desc⟩)
    | DragOp.rright cf =>
      let ne := min (total_frames - 1) (max cf (w.start + 1))
      let r := adjust_window_boundaries_smart tws total_frames w.desc w.start ne OpType.resize_right
      sync_windows (r.2.set i ⟨r.1.1, r.1.2, w.desc⟩)

/- ------------------------------------------------------------------ -/
/- add_time_window (lines 2136-2261)                                    -/
/- ------------------------------------------------------------------ -/

/-- `TimelineWidget.check_window_overlap` (lines 2255-2261). -/
def check_window_overlap (tws : List TimeWindow) (s e : Int) : Bool :=
  tws.any (fun w => ! (e < w.start || s > w.stop))

/-- The loop at lines 2147-2151: is the current frame inside some window. -/
def current_frame_in_window (tws : List TimeWindow) (cf : Int) : Bool :=
  tws.any (fun w => w.start ≤ cf && cf ≤ w.stop)

/-- `TimelineWidget.find_next_available_start` (lines 2208-2225). -/
def find_next_available_start (tws : List TimeWindow) (total_frames : Int) : Int :=
  match List.insertionSort winStopLE tws with
  | [] => 0
  | w0 :: rest =>
    let last_window := List.getLast (w0 :: rest) (List.cons_ne_nil w0 rest)
    let next_start := last_window.stop + 1
    if next_start ≥ total_frames then total_frames - 1 else next_start

/-- `TimelineWidget.calculate_optimal_end_frame` (lines 2227-2253). -/
def calculate_optimal_end_frame (tws : List TimeWindow) (default_window_width : Int)
    (total_frames : Int) (start_frame : Int) : Int :=
  let default_end := start_frame + default_window_width - 1
  let max_possible_end := total_frames - 1
  let future_windows := List.insertionSort winStartLE (tws.filter (fun w => w.start > start_frame))
  let default_end2 :=
    match future_windows with
    | [] => default_end
    | nw :: _ => min default_end (nw.start - 1)
  let final_end := min default_end2 max_possible_end
  if final_end < start_frame then start_frame else final_end

/-- The loop at lines 2168-2171: the largest existing end below the current
frame, starting from `-1`. -/
def last_end_before (tws : List TimeWindow) (cf : Int) : Int :=
  tws.foldl (fun acc w => if w.stop < cf ∧ w.stop > acc then w.stop else acc) (-1)

/-- The extent `add_time_window` proposes for the new window
(lines 2143-2179): `none` when the in-window branch hits the
end-of-video guard (lines 2158-2161). -/
def proposed_window (tws : List TimeWindow) (cf : Int) (total_frames : Int)
    (default_window_width : Int) : Option (Int × Int) :=
  if current_frame_in_window tws cf then
    let start_frame := find_next_available_start tws total_frames
    if start_frame ≥ total_frames - 1 then none
    else some (start_frame, calculate_optimal_end_frame tws default_window_width total_frames start_frame)
  else
    let start_frame := last_end_before tws cf + 1
    if start_frame > cf then some (cf, cf) else some (start_frame, cf)

/-- `TimelineWidget.add_time_window` (lines 2136-2206): max-window guard,
proposed extent, final sanity guard, overlap double-check, append of
`[start_frame, end_frame, ""]`. Every warning-and-return path leaves the
list unchanged. -/
def add_time_window (tws : List TimeWindow) (cf : Int) (total_frames : Int)
    (max_windows : Nat) (default_window_width : Int) : List TimeWindow :=
  if tws.length ≥ max_windows then tws
  else
    match proposed_window tws cf total_frames default_window_width with
    | none => tws
    | some (s, e) =>
      if e < s then tws
      else if check_window_overlap tws s e then tws
      else tws ++ [⟨s, e, ""⟩]

/- ------------------------------------------------------------------ -/
/- Segment layer and reachability (claim C1)                            -/
/- ------------------------------------------------------------------ -/

/-- `TimelineBar.update_segment_boundaries` (lines 1141-1173): after the
adjuster has written a neighbour's extent into `time_windows`, copy the
passed extent onto the first annotation segment in segment-creation order
whose `subtask` equals that entry's description, if any; an out-of-range
window index returns the segments unchanged (lines 1156-1157). Annotation
segments are modelled as `TimeWindow` values, `subtask` being `desc`.
Writing `wdw.desc` back leaves the matched segment's own text unchanged,
since the match condition forces the two equal. -/
def update_segment_boundaries (tws segs : List TimeWindow) (window_index : Nat)
    (new_start new_end : Int) : List TimeWindow :=
  match tws[window_index]? with
  | none => segs
  | some wdw =>
    match segs.findIdx? (fun sg => sg.desc == wdw.desc) with
    | none => segs
    | some k => segs.set k ⟨new_start, new_end, wdw.desc⟩

/-- `TimelineBar.adjust_window_boundaries_smart` (lines 1020-1139) together
with its `update_segment_boundaries` calls (lines 1122 and 1136): identical
to `adjust_window_boundaries_smart` on the extent and the window list, and
in the two resize clamp branches the neighbour's rewritten extent is also
copied onto the segment list, reading the neighbour back from the
just-updated `time_windows` as the Python does. -/
def adjust_window_boundaries_smart_full (tws segs : List TimeWindow) (total_frames : Int)
    (subtask : String) (new_start new_end : Int) (op : OpType) :
    ((Int × Int) × List TimeWindow) × List TimeWindow :=
  match tws.findIdx? (fun w => w.desc == subtask) with
  | none => (((new_start, new_end), tws), segs)
  | some ci =>
    let sorted_windows := List.insertionSort startOrder tws.enum
    match sorted_windows.findIdx? (fun p => p.1 == ci) with
    | none => (((new_start, new_end), tws), segs)
    | some csi =>
      let prev? := if 0 < csi then sorted_windows[csi - 1]? else none
      let next? := sorted_windows[csi + 1]?
      match op with
      | OpType.move =>
        let window_width := new_end - new_start + 1
        let p1 : Int × Int :=
          match prev? with
          | some pv =>
            if new_start ≤ pv.2.stop then (pv.2.stop + 1, pv.2.stop + 1 + window_width - 1)
            else (new_start, new_end)
          | none => (new_start, new_end)
        let p2 : Int × Int :=
          match next? with
          | some nx =>
            if p1.2 ≥ nx.2.start then (nx.2.start - 1 - window_width + 1, nx.2.start - 1)
            else p1
          | none => p1
        let p3 : Int × Int := if p2.1 < 0 then (0, window_width - 1) else p2
        let p4 : Int × Int :=
          if p3.2 ≥ total_frames then (total_frames - 1 - window_width + 1, total_frames - 1)
          else p3
        ((p4, tws), segs)
      | OpType.resize_left =>
        match prev? with
        | some pv =>
          if new_start ≤ pv.2.stop then
            let ns := pv.2.stop + 1
            let tws2 := tws.set pv.1 ⟨pv.2.start, ns - 1, pv.2.desc⟩
            (((ns, new_end), tws2),
              update_segment_boundaries tws2 segs pv.1 pv.2.start (ns - 1))
          else (((new_start, new_end), tws), segs)
        | none => (((new_start, new_end), tws), segs)
      | OpType.resize_right =>
        match next? with
        | some nx =>
          if new_end ≥ nx.2.start then
            let ne := nx.2.start - 1
            let tws2 := tws.set nx.1 ⟨ne + 1, nx.2.stop, nx.2.desc⟩
            (((new_start, ne), tws2),
              update_segment_boundaries tws2 segs nx.1 (ne + 1) nx.2.stop)
          else (((new_start, new_end), tws), segs)
        | none => (((new_start, new_end), tws), segs)

/-- The widget state a drag touches: `time_windows` and the annotation
segments of the timeline bar, the latter in segment-creation order
(`add_segment`, line 334, appends). -/
structure DragState where
  time_windows : List TimeWindow
  segments : List TimeWindow
deriving DecidableEq, Repr

/-- One complete drag of the annotation segment at index `k` of the
segment list: the corresponding branch of `mouseMoveEvent` (lines 750-788)
computes the proposed extent, calls the boundary adjuster (including its
`update_segment_boundaries` side effect), stores the adjusted extent into
the dragged segment, and the release handler (lines 861-928) rebuilds
`time_windows` from the segments sorted by start, leaving the segment list
itself in creation order. -/
def apply_drag_state (st : DragState) (total_frames : Int) (k : Nat) (op : DragOp) :
    DragState :=
  match st.segments[k]? with
  | none => st
  | some w =>
    match op with
    | DragOp.move delta =>
      let ns := max 0 (w.start + delta)
      let ne := min (total_frames - 1) (w.stop + delta)
      if ne - ns = w.stop - w.start then
        let r := adjust_window_boundaries_smart_full st.time_windows st.segments
          total_frames w.desc ns ne OpType.move
        let segs2 := r.2.set k ⟨r.1.1.1, r.1.1.2, w.desc⟩
        { time_windows := sync_windows segs2, segments := segs2 }
      else st
    | DragOp.rleft cf =>
      let ns := max 0 (min cf (w.stop - 1))
      let r := adjust_window_boundaries_smart_full st.time_windows st.segments
        total_frames w.desc ns w.stop OpType.resize_left
      let segs2 := r.2.set k ⟨r.1.1.1, r.1.1.2, w.desc⟩
      { time_windows := sync_windows segs2, segments := segs2 }
    | DragOp.rright cf =>
      let ne := min (total_frames - 1) (max cf (w.start + 1))
      let r := adjust_window_boundaries_smart_full st.time_windows st.segments
        total_frames w.desc w.start ne OpType.resize_right
      let segs2 := r.2.set k ⟨r.1.1.1, r.1.1.2, w.desc⟩
      { time_windows := sync_windows segs2, segments := segs2 }

/-- `add_time_window` on the paired state: whenever a window is appended,
`create_window_segment` (called at line 2198, body at lines 2263-2284)
appends the matching annotation segment. -/
def add_window_state (st : DragState) (cf total_frames : Int) (max_windows : Nat)
    (default_window_width : Int) : DragState :=
  let tws2 := add_time_window st.time_windows cf total_frames max_windows
    default_window_width
  { time_windows := tws2,
    segments := st.segments ++ tws2.drop st.time_windows.length }

/-- States reachable from the empty state through `add_time_window` (with
the widget constants `max_windows = 20`, `default_window_width = 50` of
lines 1206-1207, and the current frame kept inside the frame range, as
`set_current_frame` guarantees) and through complete drags of any
annotation segment. -/
inductive ReachableSegAny (tf : Int) : DragState → Prop where
  | empty : ReachableSegAny tf ⟨[], []⟩
  | add (st : DragState) (cf : Int) (h : ReachableSegAny tf st)
      (h0 : 0 ≤ cf) (h1 : cf ≤ tf - 1) :
      ReachableSegAny tf (add_window_state st cf tf 20 50)
  | drag (st : DragState) (k : Nat) (op : DragOp) (h : ReachableSegAny tf st) :
      ReachableSegAny tf (apply_drag_state st tf k op)

/-- Like `ReachableSegAny`, but every drag starts from a state whose window
descriptions are pairwise distinct, so both the adjuster's
find-by-description step (lines 1043-1046) and the segment lookup of
`update_segment_boundaries` (lines 1163-1173) are unambiguous. -/
inductive ReachableSegDD (tf : Int) : DragState → Prop where
  | empty : ReachableSegDD tf ⟨[], []⟩
  | add (st : DragState) (cf : Int) (h : ReachableSegDD tf st)
      (h0 : 0 ≤ cf) (h1 : cf ≤ tf - 1) :
      ReachableSegDD tf (add_window_state st cf tf 20 50)
  | drag (st : DragState) (k : Nat) (op : DragOp) (h : ReachableSegDD tf st)
      (hdd : (st.time_windows.map TimeWindow.desc).Nodup) :
      ReachableSegDD tf (apply_drag_state st tf k op)

/-- The well-formedness the widget maintains: every window lies inside the
frame range with `start ≤ stop`, and no two windows intersect. -/
def WindowsWF (tf : Int) (tws : List TimeWindow) : Prop :=
  (∀ w ∈ tws, 0 ≤ w.start ∧ w.start ≤ w.stop ∧ w.stop ≤ tf - 1) ∧
  List.Pairwise winDisjoint tws

/- ------------------------------------------------------------------ -/
/- save_annotations (lines 2341-2399)                                   -/
/- ------------------------------------------------------------------ -/

/-- The text actually persisted for one description (lines 2369-2372):
the English translation when the phrase table yields a non-empty one,
otherwise the original description. The phrase table is external and enters
as the parameter `translate`. -/
def save_text (translate : String → String) (d : String) : String :=
  if translate d ≠ "" then translate d else d

/-- One iteration of the save loop (lines 2366-2383): a window with an empty
description is skipped, otherwise its translated text is written to the HDF5
model and the success counter is bumped when the write reports success. The
accumulator carries `(success_count, writes issued so far)`. -/
def save_step (translate : String → String) (setLang : Int → Int → String → Bool)
    (acc : Nat × List (Int × Int × String)) (w : TimeWindow) :
    Nat × List (Int × Int × String) :=
  if w.desc ≠ "" then
    let txt := save_text translate w.desc
    ((if setLang w.start w.stop txt then acc.1 + 1 else acc.1),
      acc.2 ++ [(w.start, w.stop, txt)])
  else acc

/-- `TimelineWidget.save_annotations` (lines 2341-2399) with an HDF5 model
present. `setLang` is the external `hdf5_model.set_language_for_key` call,
returning its success flag. Returns the final Boolean result together with
the list of `(start, end, text)` writes issued to the HDF5 model, in order.
Windows with an empty description are skipped (line 2367); the function
succeeds only when at least one write reported success (lines 2385-2393). -/
def save_annotations (tws : List TimeWindow) (total_frames : Int)
    (translate : String → String) (setLang : Int → Int → String → Bool) :
    Bool × List (Int × Int × String) :=
  if (validate_time_windows tws total_frames).1 = false then (false, [])
  else
    let r := tws.foldl (save_step translate setLang) (0, [])
    (decide (r.1 > 0), r.2)

/- ------------------------------------------------------------------ -/
/- clear_timeline_annotations (lines 2401-2437)                         -/
/- ------------------------------------------------------------------ -/

/-- One segment of a `TimelineBar`: its extent, its layer key and its
label text. -/
structure TimelineSeg where
  start : Int
  stop : Int
  key : String
  subtask : String
deriving DecidableEq, Repr

/-- The state touched by `clear_timeline_annotations`: the `time_windows`
list and the segment lists of all timelines. -/
structure ClearState where
  time_windows : List TimeWindow
  timelines : List (List TimelineSeg)
deriving DecidableEq, Repr

/-- `TimelineWidget.clear_timeline_annotations` (lines 2401-2437):
returns unchanged when there are no windows or the user does not confirm;
otherwise clears `time_windows` and keeps, per timeline, exactly the
segments whose key differs from `"annotation"` (line 2424). -/
def clear_timeline_annotations (st : ClearState) (confirmYes : Bool) : ClearState :=
  if st.time_windows = [] then st
  else if ¬ confirmYes then st
  else
    { time_windows := []
      timelines := st.timelines.map (fun segs => segs.filter (fun s => s.key ≠ "annotation")) }

/- ------------------------------------------------------------------ -/
/- Theorems                                                             -/
/- ------------------------------------------------------------------ -/

/-- C2: the claim asserts resize elasticity (the neighbour is shortened and
the dragged edge advances freely). The code instead reassigns
`new_start`/`new_end` before writing the neighbour entry (lines 1116-1118,
1130-1132), so the neighbour write always stores the neighbour's existing
extent and the dragged window is clamped. Evaluated at the claim's own
Scenario B: dragging `"a"`'s right edge to 60 next to `"b" = [50,99]` clamps
`"a"` back to `[0,49]` and leaves `"b"` at `[50,99]` (instead of the claimed
`[0,60]`/`[61,99]`), and symmetrically for `resize_left`. -/
theorem C2_resize_elasticity_code_eval :
    adjust_window_boundaries_smart [⟨0, 49, "a"⟩, ⟨50, 99, "b"⟩] 100 "a" 0 60 OpType.resize_right
      = ((0, 49), [⟨0, 49, "a"⟩, ⟨50, 99, "b"⟩]) ∧
    apply_drag [⟨0, 49, "a"⟩, ⟨50, 99, "b"⟩] 100 0 (DragOp.rright 60)
      = [⟨0, 49, "a"⟩, ⟨50, 99, "b"⟩] ∧
    adjust_window_boundaries_smart [⟨0, 49, "a"⟩, ⟨50, 99, "b"⟩] 100 "b" 40 99 OpType.resize_left
      = ((50, 99), [⟨0, 49, "a"⟩, ⟨50, 99, "b"⟩]) :=
  ⟨by decide, by decide, by decide⟩

/-- C5 counterexample: the claim says moving `[20,39]` by delta `+500` on a
100-frame timeline yields `[80,99]`. The `mouseMoveEvent` move branch
(lines 754-768) first clamps the proposal to `[520,99]`, whose width differs
from the segment's, so the guard at line 761 skips the adjustment and the
window stays `[20,39]`. -/
theorem C5_move_clamp_counterexample :
    apply_drag [⟨20, 39, "x"⟩] 100 0 (DragOp.move 500) = [⟨20, 39, "x"⟩] ∧
    apply_drag [⟨20, 39, "x"⟩] 100 0 (DragOp.move 500) ≠ [⟨80, 99, "x"⟩] :=
  ⟨by decide, by decide⟩

/-- C5 amended: the width-preserving clamp to `[80,99]` does live in
`adjust_window_boundaries_smart` (lines 1102-1108) and fires when that
function receives the raw unclamped proposal `(520,539)`; but through the
`mouseMoveEvent` caller a move by delta `+500` is a no-op, because the caller
pre-clamps the proposal to the frame range and skips the adjuster when the
clamped proposal's width differs (lines 757-761). -/
theorem C5_move_clamp_amended :
    adjust_window_boundaries_smart [⟨20, 39, "x"⟩] 100 "x" 520 539 OpType.move
      = ((80, 99), [⟨20, 39, "x"⟩]) ∧
    apply_drag [⟨20, 39, "x"⟩] 100 0 (DragOp.move 500) = [⟨20, 39, "x"⟩] :=
  ⟨by decide, by decide⟩

/-- C7 counterexample: for windows `[0,30,"a"]`, `[40,99,"b"]` on 100 frames
the validator is invalid as claimed, but its gap message is
`时间窗口1(0-30)与时间窗口2(40-99)不相连，中间有间隙`, which references
neither frame 31 nor the gap range `31-39`, refuting the message-content
part of the claim. -/
theorem C7_gap_message_counterexample :
    (validate_time_windows [⟨0, 30, "a"⟩, ⟨40, 99, "b"⟩] 100).1 = false ∧
    ¬ ((strMentions (validate_time_windows [⟨0, 30, "a"⟩, ⟨40, 99, "b"⟩] 100).2 "31" = true ∧
        strMentions (validate_time_windows [⟨0, 30, "a"⟩, ⟨40, 99, "b"⟩] 100).2 "40" = true) ∨
       strMentions (validate_time_windows [⟨0, 30, "a"⟩, ⟨40, 99, "b"⟩] 100).2 "31-39" = true) :=
  ⟨by decide, by decide⟩

/-- C7 amended: on Scenario C the validator returns invalid with the gap
message, and that message references the two windows' extents `0-30` and
`40-99` (hence frame 40, the gap's right boundary) and the word 间隙 (gap),
but not frame 31. -/
theorem C7_gap_message_amended :
    validate_time_windows [⟨0, 30, "a"⟩, ⟨40, 99, "b"⟩] 100
      = (false, "时间窗口1(0-30)与时间窗口2(40-99)不相连，中间有间隙") ∧
    strMentions (validate_time_windows [⟨0, 30, "a"⟩, ⟨40, 99, "b"⟩] 100).2 "0-30" = true ∧
    strMentions (validate_time_windows [⟨0, 30, "a"⟩, ⟨40, 99, "b"⟩] 100).2 "40-99" = true ∧
    strMentions (validate_time_windows [⟨0, 30, "a"⟩, ⟨40, 99, "b"⟩] 100).2 "40" = true ∧
    strMentions (validate_time_windows [⟨0, 30, "a"⟩, ⟨40, 99, "b"⟩] 100).2 "31" = false :=
  ⟨by decide, by decide, by decide, by decide, by decide⟩

/-- C8: the adjuster locates the edited window by the dragged segment's
`subtask` text alone. When no `time_windows` entry has that description it
returns the proposed extent unchanged and mutates nothing; and with two
windows sharing a description, proposing the second window's own extent
still computes neighbours for the first match, as the concrete evaluation
shows: `[20,29]` is treated as the *next* neighbour of the matched window
`[0,9]` and the proposal is clamped to `[10,19]`. -/
theorem C8_window_identification :
    (∀ (tws : List TimeWindow) (tf ns ne : Int) (op : OpType) (subtask : String),
      (∀ w ∈ tws, w.desc ≠ subtask) →
      adjust_window_boundaries_smart tws tf subtask ns ne op = ((ns, ne), tws)) ∧
    adjust_window_boundaries_smart [⟨0, 9, "x"⟩, ⟨20, 29, "x"⟩] 100 "x" 20 29 OpType.move
      = ((10, 19), [⟨0, 9, "x"⟩, ⟨20, 29, "x"⟩]) := by
  constructor
  · intro tws tf ns ne op subtask h
    have hnone : tws.findIdx? (fun w => w.desc == subtask) = none := by
      rw [List.findIdx?_eq_none_iff]
      intro w hw
      simpa using h w hw
    simp [adjust_window_boundaries_smart, hnone]
  · decide

/-- C8 witness: a concrete no-match call returns the proposal unchanged. -/
theorem C8_window_identification_witness :
    adjust_window_boundaries_smart [⟨0, 9, "a"⟩] 100 "z" 3 4 OpType.move
      = ((3, 4), [⟨0, 9, "a"⟩]) :=
  C8_window_identification.1 [⟨0, 9, "a"⟩] 100 3 4 OpType.move "z" (by decide)

/-- C10: when windows exist and the user confirms, clearing empties
`time_windows` and, in every timeline, keeps exactly the segments whose key
differs from `"annotation"`, each such segment kept unchanged. -/
theorem C10_clear_frame_scoped (st : ClearState) (h : st.time_windows ≠ []) :
    (clear_timeline_annotations st true).time_windows = [] ∧
    (clear_timeline_annotations st true).timelines.length = st.timelines.length ∧
    ∀ (i : Nat) (segs : List TimelineSeg), st.timelines[i]? = some segs →
      ∃ segs2, (clear_timeline_annotations st true).timelines[i]? = some segs2 ∧
        ∀ seg : TimelineSeg, seg ∈ segs2 ↔ (seg ∈ segs ∧ seg.key ≠ "annotation") := by
  have hc : clear_timeline_annotations st true =
      { time_windows := []
        timelines := st.timelines.map (fun segs => segs.filter (fun s => s.key ≠ "annotation")) } := by
    simp [clear_timeline_annotations, h]
  refine ⟨by rw [hc], by rw [hc]; simp, ?_⟩
  intro i segs hi
  refine ⟨segs.filter (fun s => s.key ≠ "annotation"), ?_, ?_⟩
  · rw [hc]
    simp [List.getElem?_map, hi]
  · intro seg
    simp [List.mem_filter]

/-- C10 witness: clearing a concrete state with one annotation segment and
one data segment keeps exactly the data segment. -/
theorem C10_clear_frame_scoped_witness :
    (clear_timeline_annotations
        ⟨[⟨0, 9, ""⟩], [[⟨0, 9, "annotation", "a"⟩, ⟨0, 9, "language", "b"⟩]]⟩ true).time_windows
        = [] ∧
    (clear_timeline_annotations
        ⟨[⟨0, 9, ""⟩], [[⟨0, 9, "annotation", "a"⟩, ⟨0, 9, "language", "b"⟩]]⟩ true).timelines.length
        = 1 ∧
    ∀ (i : Nat) (segs : List TimelineSeg),
      ([[(⟨0, 9, "annotation", "a"⟩ : TimelineSeg), ⟨0, 9, "language", "b"⟩]] : List (List TimelineSeg))[i]?
        = some segs →
      ∃ segs2, (clear_timeline_annotations
          ⟨[⟨0, 9, ""⟩], [[⟨0, 9, "annotation", "a"⟩, ⟨0, 9, "language", "b"⟩]]⟩ true).timelines[i]?
          = some segs2 ∧
        ∀ seg : TimelineSeg, seg ∈ segs2 ↔ (seg ∈ segs ∧ seg.key ≠ "annotation") :=
  C10_clear_frame_scoped ⟨[⟨0, 9, ""⟩], [[⟨0, 9, "annotation", "a"⟩, ⟨0, 9, "language", "b"⟩]]⟩ (by decide)

/-- The validator loop passes exactly when every window in the list is proper
(`start ≤ stop`) and consecutive windows are exactly adjacent
(`stop + 1 = start`). -/
theorem windowsChainCheck_eq_none (l : List TimeWindow) :
    ∀ i, windowsChainCheck l i = none ↔
      ((∀ w ∈ l, w.start ≤ w.stop) ∧ List.Chain' (fun a b => a.stop + 1 = b.start) l) := by
  induction l with
  | nil => intro i; simp [windowsChainCheck]
  | cons w l ih =>
    cases l with
    | nil =>
      intro i
      simp only [windowsChainCheck, List.chain'_singleton, and_true, List.mem_singleton]
      constructor
      · intro h
        by_cases hw : w.start > w.stop
        · simp [hw] at h
        · intro x hx; subst hx; omega
      · intro h
        have := h w rfl
        rw [if_neg (by omega)]
    | cons w2 rest =>
      intro i
      rw [windowsChainCheck]
      by_cases h1 : w.start > w.stop
      · rw [if_pos h1]
        simp only [false_iff, reduceCtorEq]
        rintro ⟨hall, _⟩
        exact absurd (hall w (by simp)) (by omega)
      · rw [if_neg h1]
        by_cases h2 : w.stop ≥ w2.start
        · rw [if_pos h2]
          simp only [false_iff, reduceCtorEq]
          rintro ⟨_, hch⟩
          have := (List.chain'_cons.mp hch).1
          omega
        · rw [if_neg h2]
          by_cases h3 : w.stop + 1 ≠ w2.start
          · rw [if_pos h3]
            simp only [false_iff, reduceCtorEq]
            rintro ⟨_, hch⟩
            have := (List.chain'_cons.mp hch).1
            omega
          · rw [if_neg h3]
            rw [ih (i + 1)]
            rw [List.chain'_cons]
            constructor
            · rintro ⟨hall, hch⟩
              exact ⟨by
                intro x hx
                rcases List.mem_cons.mp hx with rfl | hx2
                · omega
                · exact hall x hx2, by omega, hch⟩
            · rintro ⟨hall, _, hch⟩
              exact ⟨fun x hx => hall x (List.mem_cons_of_mem _ hx), hch⟩

/-- In a list of proper windows where consecutive windows are exactly
adjacent, earlier windows end strictly before later windows start. -/
theorem chain_pairwise_lt (l : List TimeWindow)
    (hp : ∀ w ∈ l, w.start ≤ w.stop)
    (hc : List.Chain' (fun a b => a.stop + 1 = b.start) l) :
    List.Pairwise (fun a b => a.stop < b.start) l := by
  induction l with
  | nil => simp
  | cons w l ih =>
    cases l with
    | nil => simp
    | cons w2 rest =>
      rw [List.chain'_cons] at hc
      have hp2 : ∀ x ∈ w2 :: rest, x.start ≤ x.stop :=
        fun x hx => hp x (List.mem_cons_of_mem _ hx)
      have ih2 := ih hp2 hc.2
      refine List.Pairwise.cons ?_ ih2
      intro b hb
      rcases List.mem_cons.mp hb with rfl | hb2
      · have := hc.1
        omega
      · have hrel := (List.pairwise_cons.mp ih2).1 b hb2
        have hw2 := hp w2 (by simp)
        have := hc.1
        omega

/-- C3 counterexample: for windows `[[0,5],[6,4]]` with `total_frames = 5`
all of the claim's conditions hold (non-empty, sorted first start `0`, last
end `4 = total_frames - 1`, consecutive pair `5 + 1 = 6`), yet the validator
returns invalid, because of its additional per-window `start > end` check at
lines 2500-2501, which the claim omits. -/
theorem C3_validator_counterexample :
    (validate_time_windows [⟨0, 5, ""⟩, ⟨6, 4, ""⟩] 5).1 = false ∧
    List.insertionSort winStartLE [⟨0, 5, ""⟩, ⟨6, 4, ""⟩] = [⟨0, 5, ""⟩, ⟨6, 4, ""⟩] ∧
    (((⟨0, 5, ""⟩ : TimeWindow)).start = 0 ∧ ((⟨6, 4, ""⟩ : TimeWindow)).stop = 5 - 1) ∧
    List.Chain' (fun a b => a.stop + 1 = b.start) [(⟨0, 5, ""⟩ : TimeWindow), ⟨6, 4, ""⟩] :=
  ⟨by decide, by decide, ⟨by decide, by decide⟩, List.chain'_pair.mpr (by decide)⟩

/-- C3 amended: the validator returns valid iff the window list is non-empty
and, after the stable sort by start, the first window starts at `0`, the last
window ends at `total_frames - 1`, every consecutive pair is exactly adjacent
(`end + 1 = start`), and additionally every window is proper
(`start ≤ end`) — the extra per-window check at lines 2500-2501 that the
original claim omitted. -/
theorem C3_validator_amended (tws : List TimeWindow) (tf : Int) :
    (validate_time_windows tws tf).1 = true ↔
    ∃ h : List.insertionSort winStartLE tws ≠ [],
      ((List.insertionSort winStartLE tws).head h).start = 0 ∧
      ((List.insertionSort winStartLE tws).getLast h).stop = tf - 1 ∧
      (∀ w ∈ tws, w.start ≤ w.stop) ∧
      List.Chain' (fun a b => a.stop + 1 = b.start) (List.insertionSort winStartLE tws) := by
  have hmem : ∀ w : TimeWindow, w ∈ List.insertionSort winStartLE tws ↔ w ∈ tws :=
    fun w => (List.perm_insertionSort winStartLE tws).mem_iff
  rcases hS : List.insertionSort winStartLE tws with _ | ⟨w0, rest⟩
  · simp only [validate_time_windows, hS]
    simp
  · simp only [validate_time_windows, hS]
    rw [hS] at hmem
    constructor
    · intro hv
      by_cases h0 : w0.start ≠ 0
      · rw [if_pos h0] at hv; simp at hv
      · rw [if_neg h0] at hv
        rw [not_not] at h0
        by_cases hl : (List.getLast (w0 :: rest) (List.cons_ne_nil w0 rest)).stop ≠ tf - 1
        · rw [if_pos hl] at hv; simp at hv
        · rw [if_neg hl] at hv
          rw [not_not] at hl
          rcases hcc : windowsChainCheck (w0 :: rest) 0 with _ | msg
          · have hchain := (windowsChainCheck_eq_none (w0 :: rest) 0).mp hcc
            refine ⟨List.cons_ne_nil w0 rest, by simpa using h0, hl, ?_, hchain.2⟩
            intro w hw
            exact hchain.1 w ((hmem w).mpr hw)
          · rw [hcc] at hv; simp at hv
    · rintro ⟨hne0, h0, hl, hprop, hchain⟩
      have hpropS : ∀ w ∈ w0 :: rest, w.start ≤ w.stop :=
        fun w hw => hprop w ((hmem w).mp hw)
      rw [if_neg (by simpa using h0), if_neg (by rw [not_not]; exact hl)]
      rw [(windowsChainCheck_eq_none (w0 :: rest) 0).mpr ⟨hpropS, hchain⟩]
      have hlt := chain_pairwise_lt (w0 :: rest) hpropS hchain
      have hne : List.Pairwise
          (fun a b : TimeWindow => (a.start, a.stop) ≠ (b.start, b.stop)) (w0 :: rest) := by
        refine hlt.imp_of_mem ?_
        intro a b ha hb hab
        have hbp := hpropS b hb
        intro hcon
        rw [Prod.mk.injEq] at hcon
        omega
      have hnodup : ((w0 :: rest).map (fun w => (w.start, w.stop))).Nodup := by
        simp only [List.Nodup, List.pairwise_map]
        exact hne
      have hperm : (w0 :: rest).Perm tws := by
        rw [← hS]; exact List.perm_insertionSort winStartLE tws
      have hnodup2 : (tws.map (fun w => (w.start, w.stop))).Nodup :=
        ((hperm.map (fun w => (w.start, w.stop))).nodup_iff).mp hnodup
      rw [if_neg (not_not_intro hnodup2)]

/-- `calculate_optimal_end_frame` never returns less than the start frame
(the final guard at lines 2250-2251). -/
theorem calculate_optimal_end_frame_ge (tws : List TimeWindow) (dww tf s : Int) :
    s ≤ calculate_optimal_end_frame tws dww tf s := by
  simp only [calculate_optimal_end_frame]
  split_ifs with h <;> omega

/-- The extent proposed by `add_time_window` is never inverted. -/
theorem proposed_window_le (tws : List TimeWindow) (cf tf dww s e : Int)
    (hp : proposed_window tws cf tf dww = some (s, e)) : s ≤ e := by
  unfold proposed_window at hp
  by_cases hin : current_frame_in_window tws cf
  · rw [if_pos hin] at hp
    by_cases hg : find_next_available_start tws tf ≥ tf - 1
    · rw [if_pos hg] at hp; exact absurd hp (by simp)
    · rw [if_neg hg] at hp
      rw [Option.some.injEq, Prod.mk.injEq] at hp
      obtain ⟨hs, he⟩ := hp
      have hge := calculate_optimal_end_frame_ge tws dww tf (find_next_available_start tws tf)
      omega
  · rw [if_neg hin] at hp
    by_cases hg : last_end_before tws cf + 1 > cf
    · rw [if_pos hg, Option.some.injEq, Prod.mk.injEq] at hp
      omega
    · rw [if_neg hg, Option.some.injEq, Prod.mk.injEq] at hp
      omega

/-- C6: once `add_time_window` has computed a proposed range (the max-window
guard passed and the proposal guards did not bail out), the operation is
atomic in the claimed sense: if the proposed `[start, end]` intersects any
existing window it refuses and leaves `time_windows` exactly unchanged
(lines 2187-2191), and otherwise it appends exactly the single new window
`[start, end, ""]` (lines 2193-2195). -/
theorem C6_add_atomic (tws : List TimeWindow) (cf tf : Int) (mw : Nat) (dww s e : Int)
    (hmw : tws.length < mw)
    (hp : proposed_window tws cf tf dww = some (s, e)) :
    ((∃ w ∈ tws, ¬ (e < w.start ∨ s > w.stop)) →
      add_time_window tws cf tf mw dww = tws) ∧
    ((∀ w ∈ tws, e < w.start ∨ s > w.stop) →
      add_time_window tws cf tf mw dww = tws ++ [⟨s, e, ""⟩]) := by
  have hle := proposed_window_le tws cf tf dww s e hp
  have hguard : ¬ (tws.length ≥ mw) := by omega
  constructor
  · intro hov
    have hchk : check_window_overlap tws s e = true := by
      rw [check_window_overlap, List.any_eq_true]
      rcases hov with ⟨w, hw, hnw⟩
      refine ⟨w, hw, ?_⟩
      simpa using hnw
    simp only [add_time_window, hp]
    rw [if_neg hguard, if_neg (by omega : ¬ e < s), if_pos (by rw [hchk])]
  · intro hov
    have hchk : check_window_overlap tws s e = false := by
      rw [check_window_overlap, List.any_eq_false]
      intro w hw
      simp
      have := hov w hw
      omega
    simp only [add_time_window, hp]
    rw [if_neg hguard, if_neg (by omega : ¬ e < s), if_neg (by rw [hchk]; simp)]

/-- C6 witness: adding at frame 99 next to the single window `[0,0]`
proposes `[1,99]`, does not overlap, and appends exactly that window. -/
theorem C6_add_atomic_witness :
    ((∃ w ∈ [(⟨0, 0, ""⟩ : TimeWindow)], ¬ ((99 : Int) < w.start ∨ (1 : Int) > w.stop)) →
      add_time_window [⟨0, 0, ""⟩] 99 100 20 50 = [⟨0, 0, ""⟩]) ∧
    ((∀ w ∈ [(⟨0, 0, ""⟩ : TimeWindow)], (99 : Int) < w.start ∨ (1 : Int) > w.stop) →
      add_time_window [⟨0, 0, ""⟩] 99 100 20 50 = [⟨0, 0, ""⟩] ++ [⟨1, 99, ""⟩]) :=
  C6_add_atomic [⟨0, 0, ""⟩] 99 100 20 50 1 99 (by decide) (by decide)

/-- The writes issued by the save loop are exactly the non-empty-description
windows, in order, appended to whatever the accumulator already holds. -/
theorem save_fold_writes (translate : String → String) (setLang : Int → Int → String → Bool) :
    ∀ (l : List TimeWindow) (acc : Nat × List (Int × Int × String)),
      (l.foldl (save_step translate setLang) acc).2
        = acc.2 ++ (l.filter (fun w => w.desc ≠ "")).map
            (fun w => (w.start, w.stop, save_text translate w.desc)) := by
  intro l
  induction l with
  | nil => intro acc; simp
  | cons w l ih =>
    intro acc
    rw [List.foldl_cons, ih]
    by_cases hd : w.desc = ""
    · simp [save_step, hd]
    · simp only [save_step, if_pos hd, List.filter_cons, hd]
      simp [hd]

/-- If every window has an empty description, the save loop issues no write
and the success counter keeps its initial value. -/
theorem save_fold_count_empty (translate : String → String)
    (setLang : Int → Int → String → Bool) :
    ∀ (l : List TimeWindow) (acc : Nat × List (Int × Int × String)),
      (∀ w ∈ l, w.desc = "") →
      (l.foldl (save_step translate setLang) acc).1 = acc.1 := by
  intro l
  induction l with
  | nil => intro acc _; simp
  | cons w l ih =>
    intro acc hall
    rw [List.foldl_cons]
    have hw : w.desc = "" := hall w (by simp)
    rw [show save_step translate setLang acc w = acc by simp [save_step, hw]]
    exact ih acc (fun x hx => hall x (List.mem_cons_of_mem _ hx))

/-- C9: on a validated window set, the HDF5 save path writes exactly the
windows with a non-empty description (each with its translated text), in
order; windows with an empty description are silently omitted, and when no
window has a non-empty description the save reports failure. -/
theorem C9_save_drops_empty (tws : List TimeWindow) (tf : Int)
    (translate : String → String) (setLang : Int → Int → String → Bool)
    (hv : (validate_time_windows tws tf).1 = true) :
    (save_annotations tws tf translate setLang).2
      = (tws.filter (fun w => w.desc ≠ "")).map
          (fun w => (w.start, w.stop, save_text translate w.desc)) ∧
    ((∀ w ∈ tws, w.desc = "") → (save_annotations tws tf translate setLang).1 = false) := by
  have hvf : ¬ ((validate_time_windows tws tf).1 = false) := by rw [hv]; simp
  constructor
  · rw [save_annotations, if_neg hvf]
    simpa using save_fold_writes translate setLang tws (0, [])
  · intro hall
    rw [save_annotations, if_neg hvf]
    show decide ((tws.foldl (save_step translate setLang) (0, [])).1 > 0) = false
    rw [save_fold_count_empty translate setLang tws (0, []) hall]
    rfl

/-- C9 witness: a single fully covering labeled window is persisted as the
single write `(0, 99, "a")`. -/
theorem C9_save_drops_empty_witness :
    (save_annotations [⟨0, 99, "a"⟩] 100 (fun _ => "") (fun _ _ _ => true)).2
      = ([(⟨0, 99, "a"⟩ : TimeWindow)].filter (fun w => w.desc ≠ "")).map
          (fun w => (w.start, w.stop, save_text (fun _ => "") w.desc)) ∧
    ((∀ w ∈ [(⟨0, 99, "a"⟩ : TimeWindow)], w.desc = "") →
      (save_annotations [⟨0, 99, "a"⟩] 100 (fun _ => "") (fun _ _ _ => true)).1 = false) :=
  C9_save_drops_empty [⟨0, 99, "a"⟩] 100 (fun _ => "") (fun _ _ _ => true) (by decide)

/- ------------------------------------------------------------------ -/
/- Sorted-enumeration machinery for the BoundaryAdjuster proofs         -/
/- ------------------------------------------------------------------ -/

/-- `findIdx?` returns an index at or after its start offset, and the element
there satisfies the predicate. -/
theorem findIdxQ_some_spec {α : Type} (p : α → Bool) :
    ∀ (l : List α) (i k : Nat), List.findIdx? p l i = some k →
      i ≤ k ∧ ∃ a, l[k - i]? = some a ∧ p a = true := by
  intro l
  induction l with
  | nil => intro i k h; simp [List.findIdx?_nil] at h
  | cons x xs ih =>
    intro i k h
    rw [List.findIdx?_cons] at h
    by_cases hx : p x = true
    · rw [if_pos hx] at h
      have hik : i = k := by simpa using h
      subst hik
      exact ⟨le_refl i, x, by simp, hx⟩
    · rw [if_neg hx] at h
      obtain ⟨hik, a, ha, hpa⟩ := ih (i + 1) k h
      refine ⟨by omega, a, ?_, hpa⟩
      rw [show k - i = (k - (i + 1)) + 1 by omega, List.getElem?_cons_succ]
      exact ha

/-- Writing back the value already stored at an index is the identity. -/
theorem list_set_self {α : Type} :
    ∀ (l : List α) (i : Nat) (a : α), l[i]? = some a → l.set i a = l := by
  intro l
  induction l with
  | nil => intro i a h; simp at h
  | cons x xs ih =>
    intro i a h
    cases i with
    | zero =>
      rw [List.getElem?_cons_zero, Option.some.injEq] at h
      rw [List.set_cons_zero, h]
    | succ n =>
      rw [List.getElem?_cons_succ] at h
      rw [List.set_cons_succ, ih n a h]

/-- The sorted enumeration has the same length as the window list. -/
theorem sortedEnum_length (tws : List TimeWindow) :
    (List.insertionSort startOrder tws.enum).length = tws.length := by
  rw [(List.perm_insertionSort startOrder tws.enum).length_eq, List.enum_length]

/-- Membership in the sorted enumeration is exactly original index/value. -/
theorem sortedEnum_mem_iff (tws : List TimeWindow) (p : Nat × TimeWindow) :
    p ∈ List.insertionSort startOrder tws.enum ↔ tws[p.1]? = some p.2 := by
  rw [(List.perm_insertionSort startOrder tws.enum).mem_iff]
  exact List.mem_enum_iff_getElem?

/-- The original indices in the sorted enumeration are pairwise distinct. -/
theorem sortedEnum_fst_nodup (tws : List TimeWindow) :
    ((List.insertionSort startOrder tws.enum).map Prod.fst).Nodup := by
  have h1 : (tws.enum.map Prod.fst).Nodup := by
    rw [List.enum_map_fst]; exact List.nodup_range _
  exact (((List.perm_insertionSort startOrder tws.enum).map Prod.fst).nodup_iff).mpr h1

/-- Positions in the sorted enumeration are determined by original index. -/
theorem sortedEnum_fst_inj (tws : List TimeWindow) (k m : Nat) (pk pm : Nat × TimeWindow)
    (hk : (List.insertionSort startOrder tws.enum)[k]? = some pk)
    (hm : (List.insertionSort startOrder tws.enum)[m]? = some pm)
    (hfst : pk.1 = pm.1) : k = m := by
  by_contra hne
  have hnd := sortedEnum_fst_nodup tws
  rw [List.Nodup, List.pairwise_iff_getElem] at hnd
  obtain ⟨hk2, hk3⟩ := List.getElem?_eq_some.mp hk
  obtain ⟨hm2, hm3⟩ := List.getElem?_eq_some.mp hm
  rcases Nat.lt_or_ge k m with hlt | hge
  · have := hnd k m (by simpa using hk2) (by simpa using hm2) hlt
    rw [List.getElem_map, List.getElem_map] at this
    exact this (by rw [hk3, hm3]; exact hfst)
  · have hlt2 : m < k := by omega
    have := hnd m k (by simpa using hm2) (by simpa using hk2) hlt2
    rw [List.getElem_map, List.getElem_map] at this
    exact this (by rw [hk3, hm3]; exact hfst.symm)

/-- Every window of the list appears somewhere in the sorted enumeration. -/
theorem sortedEnum_surj (tws : List TimeWindow) (j : Nat) (wj : TimeWindow)
    (hj : tws[j]? = some wj) :
    ∃ m : Nat, (List.insertionSort startOrder tws.enum)[m]? = some (j, wj) := by
  have hmem : ((j, wj) : Nat × TimeWindow) ∈ List.insertionSort startOrder tws.enum :=
    (sortedEnum_mem_iff tws (j, wj)).mpr hj
  obtain ⟨n, hn⟩ := List.mem_iff_get.mp hmem
  refine ⟨n.1, ?_⟩
  rw [List.getElem?_eq_getElem n.isLt, ← List.get_eq_getElem, hn]

/-- In a well-formed window list, an earlier entry of the sorted enumeration
ends strictly before a later entry starts. -/
theorem sortedEnum_chain (tf : Int) (tws : List TimeWindow) (hwf : WindowsWF tf tws)
    (k m : Nat) (pk pm : Nat × TimeWindow)
    (hk : (List.insertionSort startOrder tws.enum)[k]? = some pk)
    (hm : (List.insertionSort startOrder tws.enum)[m]? = some pm)
    (hkm : k < m) : pk.2.stop < pm.2.start := by
  obtain ⟨hk2, hk3⟩ := List.getElem?_eq_some.mp hk
  obtain ⟨hm2, hm3⟩ := List.getElem?_eq_some.mp hm
  have hsorted := List.sorted_insertionSort startOrder tws.enum
  have hle : startOrder ((List.insertionSort startOrder tws.enum).get ⟨k, hk2⟩)
      ((List.insertionSort startOrder tws.enum).get ⟨m, hm2⟩) :=
    hsorted.rel_get_of_lt (by simpa using hkm)
  have hpair : List.Pairwise (fun a b : Nat × TimeWindow => winDisjoint a.2 b.2)
      (List.insertionSort startOrder tws.enum) := by
    have h0 : List.Pairwise (fun a b : Nat × TimeWindow => winDisjoint a.2 b.2) tws.enum := by
      have h1 : List.Pairwise winDisjoint (tws.enum.map Prod.snd) := by
        rw [List.enum_map_snd]; exact hwf.2
      exact List.pairwise_map.mp h1
    exact ((List.perm_insertionSort startOrder tws.enum).pairwise_iff
      (fun hab => Or.symm hab)).mpr h0
  rw [List.pairwise_iff_getElem] at hpair
  have hdisj := hpair k m hk2 hm2 hkm
  have hmmem : pm.2 ∈ tws := by
    have h5 := (sortedEnum_mem_iff tws pm).mp (List.getElem?_mem hm)
    exact List.getElem?_mem h5
  have hmwf := hwf.1 pm.2 hmmem
  rw [List.get_eq_getElem, List.get_eq_getElem, hk3, hm3] at hle
  rw [hk3, hm3] at hdisj
  have hle2 : pk.2.start ≤ pm.2.start := hle
  have h21 := hmwf.2.1
  unfold winDisjoint at hdisj
  rcases hdisj with h | h
  · exact h
  · omega

/-- The sorted-position lookup of the adjuster (lines 1057-1062) succeeds
for the current window and lands on its enumeration entry. -/
theorem adjust_ctx (tws : List TimeWindow) (i : Nat) (w : TimeWindow)
    (hi : tws[i]? = some w) :
    ∃ csi : Nat,
      (List.insertionSort startOrder tws.enum).findIdx? (fun p => p.1 == i) = some csi ∧
      (List.insertionSort startOrder tws.enum)[csi]? = some (i, w) := by
  obtain ⟨m, hm⟩ := sortedEnum_surj tws i w hi
  rcases hfind : (List.insertionSort startOrder tws.enum).findIdx? (fun p => p.1 == i)
    with _ | csi
  · rw [List.findIdx?_eq_none_iff] at hfind
    have := hfind (i, w) (List.getElem?_mem hm)
    simp at this
  · obtain ⟨-, a, ha, hpa⟩ := findIdxQ_some_spec (fun p => p.1 == i)
      (List.insertionSort startOrder tws.enum) 0 csi hfind
    rw [Nat.sub_zero] at ha
    have ha1 : a.1 = i := by simpa using hpa
    have ha2 : tws[a.1]? = some a.2 :=
      (sortedEnum_mem_iff tws a).mp (List.getElem?_mem ha)
    have haw : a = (i, w) := by
      obtain ⟨a1, a2⟩ := a
      simp only at ha1 ha2
      subst ha1
      rw [hi, Option.some.injEq] at ha2
      rw [ha2]
    refine ⟨csi, hfind, ?_⟩
    rw [← haw]
    exact ha

/-- If an adjusted extent stays right of the sorted predecessor's end and
left of the sorted successor's start, it is disjoint from every other
window of a well-formed list. -/
theorem sortedEnum_others (tf : Int) (tws : List TimeWindow) (i : Nat) (w : TimeWindow)
    (csi : Nat) (hwf : WindowsWF tf tws)
    (hcsi : (List.insertionSort startOrder tws.enum)[csi]? = some (i, w))
    (fs fe : Int)
    (hleft : ∀ pv : Nat × TimeWindow,
      (List.insertionSort startOrder tws.enum)[csi - 1]? = some pv → 0 < csi →
        pv.2.stop < fs)
    (hright : ∀ nx : Nat × TimeWindow,
      (List.insertionSort startOrder tws.enum)[csi + 1]? = some nx → fe < nx.2.start) :
    ∀ (j : Nat) (wj : TimeWindow), j ≠ i → tws[j]? = some wj →
      wj.stop < fs ∨ fe < wj.start := by
  intro j wj hji hj
  obtain ⟨m, hm⟩ := sortedEnum_surj tws j wj hj
  have hmne : m ≠ csi := by
    intro he
    rw [he, hcsi, Option.some.injEq] at hm
    exact hji (congrArg Prod.fst hm).symm
  have hcsilt : csi < (List.insertionSort startOrder tws.enum).length :=
    (List.getElem?_eq_some.mp hcsi).1
  have hmlt : m < (List.insertionSort startOrder tws.enum).length :=
    (List.getElem?_eq_some.mp hm).1
  rcases Nat.lt_or_ge m csi with hlt | hge
  · left
    have hpos : 0 < csi := by omega
    have hpm1 : csi - 1 < (List.insertionSort startOrder tws.enum).length := by omega
    obtain ⟨pv, hpv⟩ : ∃ pv, (List.insertionSort startOrder tws.enum)[csi - 1]? = some pv :=
      ⟨_, List.getElem?_eq_getElem hpm1⟩
    have hfs := hleft pv hpv hpos
    rcases Nat.lt_or_ge m (csi - 1) with hlt2 | hge2
    · have hchain := sortedEnum_chain tf tws hwf m (csi - 1) (j, wj) pv hm hpv hlt2
      have hpvmem : pv.2 ∈ tws := by
        have h5 := (sortedEnum_mem_iff tws pv).mp (List.getElem?_mem hpv)
        exact List.getElem?_mem h5
      have hpvwf := hwf.1 pv.2 hpvmem
      simp only at hchain
      omega
    · have hmeq : m = csi - 1 := by omega
      rw [hmeq, hpv, Option.some.injEq] at hm
      rw [hm] at hfs
      exact hfs
  · have hgt : csi < m := by omega
    have hnx1 : csi + 1 < (List.insertionSort startOrder tws.enum).length := by omega
    obtain ⟨nx, hnx⟩ : ∃ nx, (List.insertionSort startOrder tws.enum)[csi + 1]? = some nx :=
      ⟨_, List.getElem?_eq_getElem hnx1⟩
    have hfe := hright nx hnx
    right
    rcases Nat.lt_or_ge (csi + 1) m with hlt2 | hge2
    · have hchain := sortedEnum_chain tf tws hwf (csi + 1) m nx (j, wj) hnx hm hlt2
      have hnxmem : nx.2 ∈ tws := by
        have h5 := (sortedEnum_mem_iff tws nx).mp (List.getElem?_mem hnx)
        exact List.getElem?_mem h5
      have hnxwf := hwf.1 nx.2 hnxmem
      simp only at hchain
      omega
    · have hmeq : m = csi + 1 := by omega
      rw [hmeq, hnx, Option.some.injEq] at hm
      rw [hm] at hfe
      exact hfe

/-- Behaviour of the adjuster's `resize_left` branch (lines 1110-1122) when
the dragged window is the first description match: the window list is
unchanged (the neighbour write stores the neighbour's existing extent), the
returned extent keeps the proposed right edge, its left edge is in range and
right of every earlier window, and the extent is disjoint from every other
window. -/
theorem adjust_rleft_spec (tf : Int) (tws : List TimeWindow) (i : Nat) (w : TimeWindow)
    (ns : Int) (hwf : WindowsWF tf tws) (hi : tws[i]? = some w)
    (hfm : tws.findIdx? (fun x => x.desc == w.desc) = some i)
    (hns0 : 0 ≤ ns) (hnsle : ns ≤ w.stop) :
    ∃ fs : Int,
      adjust_window_boundaries_smart tws tf w.desc ns w.stop OpType.resize_left
        = ((fs, w.stop), tws) ∧
      0 ≤ fs ∧ fs ≤ w.stop ∧
      ∀ (j : Nat) (wj : TimeWindow), j ≠ i → tws[j]? = some wj →
        wj.stop < fs ∨ w.stop < wj.start := by
  obtain ⟨csi, hfind, hcsi⟩ := adjust_ctx tws i w hi
  have hwmem : w ∈ tws := List.getElem?_mem hi
  have hwwf := hwf.1 w hwmem
  have hcsilt : csi < (List.insertionSort startOrder tws.enum).length :=
    (List.getElem?_eq_some.mp hcsi).1
  have hright : ∀ nx : Nat × TimeWindow,
      (List.insertionSort startOrder tws.enum)[csi + 1]? = some nx → w.stop < nx.2.start :=
    fun nx hnx => sortedEnum_chain tf tws hwf csi (csi + 1) (i, w) nx hcsi hnx (by omega)
  rw [adjust_window_boundaries_smart]
  rw [hfm]
  simp only []
  rw [hfind]
  by_cases hpos : 0 < csi
  · have hpm1 : csi - 1 < (List.insertionSort startOrder tws.enum).length := by omega
    obtain ⟨pv, hpv⟩ : ∃ pv, (List.insertionSort startOrder tws.enum)[csi - 1]? = some pv :=
      ⟨_, List.getElem?_eq_getElem hpm1⟩
    have hpvw : pv.2.stop < w.start :=
      sortedEnum_chain tf tws hwf (csi - 1) csi pv (i, w) hpv hcsi (by omega)
    have hpvmem : pv.2 ∈ tws := by
      have h5 := (sortedEnum_mem_iff tws pv).mp (List.getElem?_mem hpv)
      exact List.getElem?_mem h5
    have hpvwf := hwf.1 pv.2 hpvmem
    simp only [if_pos hpos, hpv]
    by_cases hcl : ns ≤ pv.2.stop
    · rw [if_pos hcl]
      have hid : tws.set pv.1 ⟨pv.2.start, pv.2.stop + 1 - 1, pv.2.desc⟩ = tws := by
        have h6 : pv.2.stop + 1 - 1 = pv.2.stop := by omega
        rw [h6]
        exact list_set_self tws pv.1 pv.2
          ((sortedEnum_mem_iff tws pv).mp (List.getElem?_mem hpv))
      refine ⟨pv.2.stop + 1, by rw [hid], by omega, by omega, ?_⟩
      refine sortedEnum_others tf tws i w csi hwf hcsi (pv.2.stop + 1) w.stop ?_ hright
      intro pv2 hpv2 _
      rw [hpv, Option.some.injEq] at hpv2
      rw [← hpv2]
      omega
    · rw [if_neg hcl]
      refine ⟨ns, rfl, hns0, hnsle, ?_⟩
      refine sortedEnum_others tf tws i w csi hwf hcsi ns w.stop ?_ hright
      intro pv2 hpv2 _
      rw [hpv, Option.some.injEq] at hpv2
      rw [← hpv2]
      omega
  · simp only [if_neg hpos]
    refine ⟨ns, rfl, hns0, hnsle, ?_⟩
    refine sortedEnum_others tf tws i w csi hwf hcsi ns w.stop ?_ hright
    intro pv2 hpv2 hpos2
    exact absurd hpos2 hpos

/-- Behaviour of the adjuster's `resize_right` branch (lines 1124-1136) when
the dragged window is the first description match: symmetric to
`adjust_rleft_spec`. -/
theorem adjust_rright_spec (tf : Int) (tws : List TimeWindow) (i : Nat) (w : TimeWindow)
    (ne : Int) (hwf : WindowsWF tf tws) (hi : tws[i]? = some w)
    (hfm : tws.findIdx? (fun x => x.desc == w.desc) = some i)
    (hge : w.start ≤ ne) (hne : ne ≤ tf - 1) :
    ∃ fe : Int,
      adjust_window_boundaries_smart tws tf w.desc w.start ne OpType.resize_right
        = ((w.start, fe), tws) ∧
      w.start ≤ fe ∧ fe ≤ tf - 1 ∧
      ∀ (j : Nat) (wj : TimeWindow), j ≠ i → tws[j]? = some wj →
        wj.stop < w.start ∨ fe < wj.start := by
  obtain ⟨csi, hfind, hcsi⟩ := adjust_ctx tws i w hi
  have hwmem : w ∈ tws := List.getElem?_mem hi
  have hwwf := hwf.1 w hwmem
  have hcsilt : csi < (List.insertionSort startOrder tws.enum).length :=
    (List.getElem?_eq_some.mp hcsi).1
  have hleft : ∀ pv : Nat × TimeWindow,
      (List.insertionSort startOrder tws.enum)[csi - 1]? = some pv → 0 < csi →
        pv.2.stop < w.start :=
    fun pv hpv hpos =>
      sortedEnum_chain tf tws hwf (csi - 1) csi pv (i, w) hpv hcsi (by omega)
  rw [adjust_window_boundaries_smart]
  rw [hfm]
  simp only []
  rw [hfind]
  rcases hnx : (List.insertionSort startOrder tws.enum)[csi + 1]? with _ | nx
  · simp only [hnx]
    refine ⟨ne, rfl, hge, hne, ?_⟩
    refine sortedEnum_others tf tws i w csi hwf hcsi w.start ne hleft ?_
    intro nx2 hnx2
    rw [hnx] at hnx2
    exact absurd hnx2 (by simp)
  · have hnxw : w.stop < nx.2.start :=
      sortedEnum_chain tf tws hwf csi (csi + 1) (i, w) nx hcsi hnx (by omega)
    have hnxmem : nx.2 ∈ tws := by
      have h5 := (sortedEnum_mem_iff tws nx).mp (List.getElem?_mem hnx)
      exact List.getElem?_mem h5
    have hnxwf := hwf.1 nx.2 hnxmem
    simp only [hnx]
    by_cases hcl : ne ≥ nx.2.start
    · rw [if_pos hcl]
      have hid : tws.set nx.1 ⟨nx.2.start - 1 + 1, nx.2.stop, nx.2.desc⟩ = tws := by
        have h6 : nx.2.start - 1 + 1 = nx.2.start := by omega
        rw [h6]
        exact list_set_self tws nx.1 nx.2
          ((sortedEnum_mem_iff tws nx).mp (List.getElem?_mem hnx))
      refine ⟨nx.2.start - 1, by rw [hid], by omega, by omega, ?_⟩
      refine sortedEnum_others tf tws i w csi hwf hcsi w.start (nx.2.start - 1) hleft ?_
      intro nx2 hnx2
      rw [hnx, Option.some.injEq] at hnx2
      rw [← hnx2]
      omega
    · rw [if_neg hcl]
      refine ⟨ne, rfl, hge, hne, ?_⟩
      refine sortedEnum_others tf tws i w csi hwf hcsi w.start ne hleft ?_
      intro nx2 hnx2
      rw [hnx, Option.some.injEq] at hnx2
      rw [← hnx2]
      omega

/-- Behaviour of the adjuster's `move` branch (lines 1080-1108) when the
dragged window is the first description match and the caller supplies a
width-preserving, range-clamped proposal: the window list is untouched and
the returned extent is in range, width-preserving, and disjoint from every
other window. -/
theorem adjust_move_spec (tf : Int) (tws : List TimeWindow) (i : Nat) (w : TimeWindow)
    (ns ne : Int) (hwf : WindowsWF tf tws) (hi : tws[i]? = some w)
    (hfm : tws.findIdx? (fun x => x.desc == w.desc) = some i)
    (hns0 : 0 ≤ ns) (hne : ne ≤ tf - 1) (hwidth : ne - ns = w.stop - w.start) :
    ∃ fs fe : Int,
      adjust_window_boundaries_smart tws tf w.desc ns ne OpType.move = ((fs, fe), tws) ∧
      0 ≤ fs ∧ fe ≤ tf - 1 ∧ fe - fs = w.stop - w.start ∧
      ∀ (j : Nat) (wj : TimeWindow), j ≠ i → tws[j]? = some wj →
        wj.stop < fs ∨ fe < wj.start := by
  obtain ⟨csi, hfind, hcsi⟩ := adjust_ctx tws i w hi
  have hwmem : w ∈ tws := List.getElem?_mem hi
  have hwwf := hwf.1 w hwmem
  have hcsilt : csi < (List.insertionSort startOrder tws.enum).length :=
    (List.getElem?_eq_some.mp hcsi).1
  rw [adjust_window_boundaries_smart]
  rw [hfm]
  simp only []
  rw [hfind]
  by_cases hpos : 0 < csi
  · have hpm1 : csi - 1 < (List.insertionSort startOrder tws.enum).length := by omega
    obtain ⟨pv, hpv⟩ : ∃ pv, (List.insertionSort startOrder tws.enum)[csi - 1]? = some pv :=
      ⟨_, List.getElem?_eq_getElem hpm1⟩
    have hpvw : pv.2.stop < w.start :=
      sortedEnum_chain tf tws hwf (csi - 1) csi pv (i, w) hpv hcsi (by omega)
    have hpvmem : pv.2 ∈ tws := by
      have h5 := (sortedEnum_mem_iff tws pv).mp (List.getElem?_mem hpv)
      exact List.getElem?_mem h5
    have hpvwf := hwf.1 pv.2 hpvmem
    have hleftpv : ∀ (fs : Int), pv.2.stop < fs →
        (∀ pv2 : Nat × TimeWindow,
          (List.insertionSort startOrder tws.enum)[csi - 1]? = some pv2 → 0 < csi →
            pv2.2.stop < fs) := by
      intro fs hfs pv2 hpv2 _
      rw [hpv, Option.some.injEq] at hpv2
      rw [← hpv2]
      exact hfs
    simp only [if_pos hpos, hpv]
    rcases hnx : (List.insertionSort startOrder tws.enum)[csi + 1]? with _ | nx
    · simp only [hnx]
      have hnoright : ∀ nx2 : Nat × TimeWindow,
          (List.insertionSort startOrder tws.enum)[csi + 1]? = some nx2 →
            ∀ fe : Int, fe < nx2.2.start := by
        intro nx2 hnx2
        rw [hnx] at hnx2
        exact absurd hnx2 (by simp)
      by_cases hcl1 : ns ≤ pv.2.stop
      · rw [if_pos hcl1]
        by_cases hb : pv.2.stop + 1 + (ne - ns + 1) - 1 ≥ tf
        · rw [if_neg (by omega : ¬ pv.2.stop + 1 < 0), if_pos hb]
          refine ⟨tf - 1 - (ne - ns + 1) + 1, tf - 1, rfl, by omega, by omega, by omega, ?_⟩
          refine sortedEnum_others tf tws i w csi hwf hcsi _ _
            (hleftpv _ (by omega)) (fun nx2 hnx2 => hnoright nx2 hnx2 _)
        · rw [if_neg (by omega : ¬ pv.2.stop + 1 < 0), if_neg hb]
          refine ⟨pv.2.stop + 1, pv.2.stop + 1 + (ne - ns + 1) - 1, rfl,
            by omega, by omega, by omega, ?_⟩
          refine sortedEnum_others tf tws i w csi hwf hcsi _ _
            (hleftpv _ (by omega)) (fun nx2 hnx2 => hnoright nx2 hnx2 _)
      · rw [if_neg hcl1]
        rw [if_neg (by omega : ¬ ns < 0), if_neg (by omega : ¬ ne ≥ tf)]
        refine ⟨ns, ne, rfl, hns0, hne, by omega, ?_⟩
        refine sortedEnum_others tf tws i w csi hwf hcsi _ _
          (hleftpv _ (by omega)) (fun nx2 hnx2 => hnoright nx2 hnx2 _)
    · have hnxw : w.stop < nx.2.start :=
        sortedEnum_chain tf tws hwf csi (csi + 1) (i, w) nx hcsi hnx (by omega)
      have hnxmem : nx.2 ∈ tws := by
        have h5 := (sortedEnum_mem_iff tws nx).mp (List.getElem?_mem hnx)
        exact List.getElem?_mem h5
      have hnxwf := hwf.1 nx.2 hnxmem
      have hrightnx : ∀ (fe : Int), fe < nx.2.start →
          (∀ nx2 : Nat × TimeWindow,
            (List.insertionSort startOrder tws.enum)[csi + 1]? = some nx2 →
              fe < nx2.2.start) := by
        intro fe hfe nx2 hnx2
        rw [hnx, Option.some.injEq] at hnx2
        rw [← hnx2]
        exact hfe
      simp only [hnx]
      by_cases hcl1 : ns ≤ pv.2.stop
      · rw [if_pos hcl1]
        by_cases hcl2 : pv.2.stop + 1 + (ne - ns + 1) - 1 ≥ nx.2.start
        · rw [if_pos hcl2]
          rw [if_neg (by omega : ¬ nx.2.start - 1 - (ne - ns + 1) + 1 < 0),
            if_neg (by omega : ¬ nx.2.start - 1 ≥ tf)]
          refine ⟨nx.2.start - 1 - (ne - ns + 1) + 1, nx.2.start - 1, rfl,
            by omega, by omega, by omega, ?_⟩
          refine sortedEnum_others tf tws i w csi hwf hcsi _ _
            (hleftpv _ (by omega)) (hrightnx _ (by omega))
        · rw [if_neg hcl2]
          rw [if_neg (by omega : ¬ pv.2.stop + 1 < 0),
            if_neg (by omega : ¬ pv.2.stop + 1 + (ne - ns + 1) - 1 ≥ tf)]
          refine ⟨pv.2.stop + 1, pv.2.stop + 1 + (ne - ns + 1) - 1, rfl,
            by omega, by omega, by omega, ?_⟩
          refine sortedEnum_others tf tws i w csi hwf hcsi _ _
            (hleftpv _ (by omega)) (hrightnx _ (by omega))
      · rw [if_neg hcl1]
        by_cases hcl2 : ne ≥ nx.2.start
        · rw [if_pos hcl2]
          rw [if_neg (by omega : ¬ nx.2.start - 1 - (ne - ns + 1) + 1 < 0),
            if_neg (by omega : ¬ nx.2.start - 1 ≥ tf)]
          refine ⟨nx.2.start - 1 - (ne - ns + 1) + 1, nx.2.start - 1, rfl,
            by omega, by omega, by omega, ?_⟩
          refine sortedEnum_others tf tws i w csi hwf hcsi _ _
            (hleftpv _ (by omega)) (hrightnx _ (by omega))
        · rw [if_neg hcl2]
          rw [if_neg (by omega : ¬ ns < 0), if_neg (by omega : ¬ ne ≥ tf)]
          refine ⟨ns, ne, rfl, hns0, hne, by omega, ?_⟩
          refine sortedEnum_others tf tws i w csi hwf hcsi _ _
            (hleftpv _ (by omega)) (hrightnx _ (by omega))
  · have hnoleft : ∀ (fs : Int), ∀ pv2 : Nat × TimeWindow,
        (List.insertionSort startOrder tws.enum)[csi - 1]? = some pv2 → 0 < csi →
          pv2.2.stop < fs :=
      fun fs pv2 hpv2 hpos2 => absurd hpos2 hpos
    simp only [if_neg hpos]
    rcases hnx : (List.insertionSort startOrder tws.enum)[csi + 1]? with _ | nx
    · simp only [hnx]
      rw [if_neg (by omega : ¬ ns < 0), if_neg (by omega : ¬ ne ≥ tf)]
      refine ⟨ns, ne, rfl, hns0, hne, by omega, ?_⟩
      refine sortedEnum_others tf tws i w csi hwf hcsi _ _ (hnoleft _) ?_
      intro nx2 hnx2
      rw [hnx] at hnx2
      exact absurd hnx2 (by simp)
    · have hnxw : w.stop < nx.2.start :=
        sortedEnum_chain tf tws hwf csi (csi + 1) (i, w) nx hcsi hnx (by omega)
      have hnxmem : nx.2 ∈ tws := by
        have h5 := (sortedEnum_mem_iff tws nx).mp (List.getElem?_mem hnx)
        exact List.getElem?_mem h5
      have hnxwf := hwf.1 nx.2 hnxmem
      have hrightnx : ∀ (fe : Int), fe < nx.2.start →
          (∀ nx2 : Nat × TimeWindow,
            (List.insertionSort startOrder tws.enum)[csi + 1]? = some nx2 →
              fe < nx2.2.start) := by
        intro fe hfe nx2 hnx2
        rw [hnx, Option.some.injEq] at hnx2
        rw [← hnx2]
        exact hfe
      simp only [hnx]
      by_cases hcl2 : ne ≥ nx.2.start
      · rw [if_pos hcl2]
        rw [if_neg (by omega : ¬ nx.2.start - 1 - (ne - ns + 1) + 1 < 0),
          if_neg (by omega : ¬ nx.2.start - 1 ≥ tf)]
        refine ⟨nx.2.start - 1 - (ne - ns + 1) + 1, nx.2.start - 1, rfl,
          by omega, by omega, by omega, ?_⟩
        refine sortedEnum_others tf tws i w csi hwf hcsi _ _ (hnoleft _)
          (hrightnx _ (by omega))
      · rw [if_neg hcl2]
        rw [if_neg (by omega : ¬ ns < 0), if_neg (by omega : ¬ ne ≥ tf)]
        refine ⟨ns, ne, rfl, hns0, hne, by omega, ?_⟩
        refine sortedEnum_others tf tws i w csi hwf hcsi _ _ (hnoleft _)
          (hrightnx _ (by omega))

/-- Replacing one window by an extent disjoint from all the others keeps the
list pairwise disjoint. -/
theorem pairwise_winDisjoint_set (tws : List TimeWindow) (i : Nat) (x : TimeWindow)
    (hp : List.Pairwise winDisjoint tws)
    (hx : ∀ (j : Nat) (wj : TimeWindow), j ≠ i → tws[j]? = some wj → winDisjoint x wj) :
    List.Pairwise winDisjoint (tws.set i x) := by
  rw [List.pairwise_iff_getElem] at hp ⊢
  intro k m hk hm hkm
  rw [List.length_set] at hk hm
  rw [List.getElem_set, List.getElem_set]
  by_cases hik : i = k
  · subst hik
    rw [if_pos rfl, if_neg (by omega)]
    exact hx m tws[m] (by omega) (List.getElem?_eq_getElem hm)
  · rw [if_neg hik]
    by_cases him : i = m
    · subst him
      rw [if_pos rfl]
      have h5 := hx k tws[k] (fun he => hik he.symm) (List.getElem?_eq_getElem hk)
      exact Or.symm h5
    · rw [if_neg him]
      exact hp k m hk hm hkm

/-- The release synchronisation (a stable sort by start) preserves
well-formedness. -/
theorem sync_windows_WF (tf : Int) (ws : List TimeWindow) (h : WindowsWF tf ws) :
    WindowsWF tf (sync_windows ws) := by
  constructor
  · intro x hx
    exact h.1 x ((List.perm_insertionSort winStartLE ws).mem_iff.mp hx)
  · exact ((List.perm_insertionSort winStartLE ws).pairwise_iff
      (fun hab => Or.symm hab)).mpr h.2

/-- Membership gives an index under the optional-indexing view. -/
theorem mem_getElemQ {α : Type} (l : List α) (a : α) (h : a ∈ l) :
    ∃ i : Nat, l[i]? = some a :=
  List.mem_iff_getElem?.mp h

/-- Distinct positions of a duplicate-free list hold distinct values. -/
theorem nodup_getElemQ_ne {α : Type} (l : List α) (hnd : l.Nodup) (k m : Nat) (a b : α)
    (hk : l[k]? = some a) (hm : l[m]? = some b) (hne : k ≠ m) : a ≠ b := by
  rw [List.Nodup, List.pairwise_iff_getElem] at hnd
  obtain ⟨hk2, hk3⟩ := List.getElem?_eq_some.mp hk
  obtain ⟨hm2, hm3⟩ := List.getElem?_eq_some.mp hm
  rcases Nat.lt_or_ge k m with hlt | hge
  · have h5 := hnd k m hk2 hm2 hlt
    rw [hk3, hm3] at h5
    exact h5
  · have hlt2 : m < k := by omega
    have h5 := hnd m k hm2 hk2 hlt2
    rw [hk3, hm3] at h5
    exact fun he => h5 he.symm

/-- When descriptions are pairwise distinct, the find-by-description step
(lines 1043-1046) applied to a member window's description finds exactly
that window. -/
theorem findIdx_desc_unique (tws : List TimeWindow) (w : TimeWindow)
    (hdd : (tws.map TimeWindow.desc).Nodup) (hw : w ∈ tws) :
    ∃ i : Nat, tws.findIdx? (fun x => x.desc == w.desc) = some i ∧ tws[i]? = some w := by
  rcases hf : tws.findIdx? (fun x => x.desc == w.desc) with _ | i
  · rw [List.findIdx?_eq_none_iff] at hf
    have := hf w hw
    simp at this
  · obtain ⟨-, a, ha, hpa⟩ := findIdxQ_some_spec (fun x => x.desc == w.desc) tws 0 i hf
    rw [Nat.sub_zero] at ha
    have ha2 : a.desc = w.desc := by simpa using hpa
    have haw : a = w :=
      List.inj_on_of_nodup_map hdd (List.getElem?_mem ha) hw ha2
    exact ⟨i, hf, by rw [← haw]; exact ha⟩

/-- Rewriting a window's own extent back through `update_segment_boundaries`
is the identity on a segment list that carries the windows with pairwise
distinct descriptions: the subtask lookup (lines 1163-1173) finds the
segment equal to that window and stores its existing extent. -/
theorem update_segment_boundaries_id (tws segs : List TimeWindow) (pi2 : Nat)
    (pv : TimeWindow) (hpi : tws[pi2]? = some pv)
    (hperm : segs.Perm tws) (hdd : (tws.map TimeWindow.desc).Nodup) :
    update_segment_boundaries tws segs pi2 pv.start pv.stop = segs := by
  rcases hfk : segs.findIdx? (fun sg => sg.desc == pv.desc) with _ | k0
  · simp only [update_segment_boundaries, hpi, hfk]
  · simp only [update_segment_boundaries, hpi, hfk]
    obtain ⟨-, sg, hsg, hpsg⟩ := findIdxQ_some_spec (fun sg => sg.desc == pv.desc) segs 0
      k0 hfk
    rw [Nat.sub_zero] at hsg
    have hsg2 : sg.desc = pv.desc := by simpa using hpsg
    have hsgtws : sg ∈ tws := hperm.mem_iff.mp (List.getElem?_mem hsg)
    have hsgpv : sg = pv :=
      List.inj_on_of_nodup_map hdd hsgtws (List.getElem?_mem hpi) hsg2
    have heta : (⟨pv.start, pv.stop, pv.desc⟩ : TimeWindow) = pv := rfl
    rw [heta]
    exact list_set_self segs k0 pv (by rw [← hsgpv]; exact hsg)

/-- On a segment list that carries the windows with pairwise distinct
descriptions, the full adjuster is the plain adjuster paired with an
unchanged segment list: in the resize clamp branches the neighbour write is
the identity on `time_windows` (lines 1116-1118 and 1130-1132 store the
neighbour's existing extent), so the segment write copies an unchanged
extent onto the unique matching segment. -/
theorem adjust_full_eq (tws segs : List TimeWindow) (tf : Int) (subtask : String)
    (ns ne : Int) (op : OpType)
    (hperm : segs.Perm tws) (hdd : (tws.map TimeWindow.desc).Nodup) :
    adjust_window_boundaries_smart_full tws segs tf subtask ns ne op
      = (adjust_window_boundaries_smart tws tf subtask ns ne op, segs) := by
  rcases hf : tws.findIdx? (fun w => w.desc == subtask) with _ | ci
  · simp only [adjust_window_boundaries_smart_full, adjust_window_boundaries_smart, hf]
  · rcases hs : (List.insertionSort startOrder tws.enum).findIdx? (fun p => p.1 == ci)
      with _ | csi
    · simp only [adjust_window_boundaries_smart_full, adjust_window_boundaries_smart,
        hf, hs]
    · cases op with
      | move =>
        simp only [adjust_window_boundaries_smart_full, adjust_window_boundaries_smart,
          hf, hs]
      | resize_left =>
        simp only [adjust_window_boundaries_smart_full, adjust_window_boundaries_smart,
          hf, hs]
        by_cases hpos : 0 < csi
        · rw [if_pos hpos]
          rcases hpv : (List.insertionSort startOrder tws.enum)[csi - 1]? with _ | pv
          · rfl
          · simp only []
            by_cases hcl : ns ≤ pv.2.stop
            · simp only [if_pos hcl]
              have htws : tws[pv.1]? = some pv.2 :=
                (sortedEnum_mem_iff tws pv).mp (List.getElem?_mem hpv)
              have h6 : pv.2.stop + 1 - 1 = pv.2.stop := by omega
              have heta : (⟨pv.2.start, pv.2.stop, pv.2.desc⟩ : TimeWindow) = pv.2 := rfl
              rw [h6, heta, list_set_self tws pv.1 pv.2 htws,
                update_segment_boundaries_id tws segs pv.1 pv.2 htws hperm hdd]
            · simp only [if_neg hcl]
        · rw [if_neg hpos]
      | resize_right =>
        simp only [adjust_window_boundaries_smart_full, adjust_window_boundaries_smart,
          hf, hs]
        rcases hnx : (List.insertionSort startOrder tws.enum)[csi + 1]? with _ | nx
        · rfl
        · simp only []
          by_cases hcl : ne ≥ nx.2.start
          · simp only [if_pos hcl]
            have htws : tws[nx.1]? = some nx.2 :=
              (sortedEnum_mem_iff tws nx).mp (List.getElem?_mem hnx)
            have h6 : nx.2.start - 1 + 1 = nx.2.start := by omega
            have heta : (⟨nx.2.start, nx.2.stop, nx.2.desc⟩ : TimeWindow) = nx.2 := rfl
            rw [h6, heta, list_set_self tws nx.1 nx.2 htws,
              update_segment_boundaries_id tws segs nx.1 nx.2 htws hperm hdd]
          · simp only [if_neg hcl]

/-- Disjointness of an extent from every other window transfers to every
other segment, when the segments carry the windows with pairwise distinct
descriptions. -/
theorem segs_others (tws segs : List TimeWindow) (hperm : segs.Perm tws)
    (hdd : (tws.map TimeWindow.desc).Nodup) (k : Nat) (w : TimeWindow)
    (hk : segs[k]? = some w) (i : Nat) (hi : tws[i]? = some w) (fs fe : Int)
    (hdisj : ∀ (j : Nat) (wj : TimeWindow), j ≠ i → tws[j]? = some wj →
      wj.stop < fs ∨ fe < wj.start) :
    ∀ (m : Nat) (sm : TimeWindow), m ≠ k → segs[m]? = some sm →
      sm.stop < fs ∨ fe < sm.start := by
  intro m sm hmk hm
  have htwsnd : tws.Nodup := hdd.of_map
  have hsegnd : segs.Nodup := hperm.nodup_iff.mpr htwsnd
  have hsmw : sm ≠ w := nodup_getElemQ_ne segs hsegnd m k sm w hm hk hmk
  obtain ⟨j, hj⟩ := mem_getElemQ tws sm (hperm.mem_iff.mp (List.getElem?_mem hm))
  have hji : j ≠ i := by
    intro he
    subst he
    rw [hi, Option.some.injEq] at hj
    exact hsmw hj.symm
  exact hdisj j sm hji hj

/-- A complete drag of any segment from a state whose window descriptions
are pairwise distinct keeps the window list well-formed and the segments a
permutation of it: the full adjuster degenerates to the plain one with
unchanged segments, and the adjusted extent fits strictly between the
dragged window's sorted neighbours. -/
theorem apply_drag_state_WF (tf : Int) (st : DragState) (k : Nat) (op : DragOp)
    (hwf : WindowsWF tf st.time_windows) (hperm : st.segments.Perm st.time_windows)
    (hdd : (st.time_windows.map TimeWindow.desc).Nodup) :
    WindowsWF tf (apply_drag_state st tf k op).time_windows ∧
    (apply_drag_state st tf k op).segments.Perm
      (apply_drag_state st tf k op).time_windows := by
  rcases hk : st.segments[k]? with _ | w
  · simp only [apply_drag_state, hk]
    exact ⟨hwf, hperm⟩
  · obtain ⟨i, hfmw, hi⟩ := findIdx_desc_unique st.time_windows w hdd
      (hperm.mem_iff.mp (List.getElem?_mem hk))
    have hwwf := hwf.1 w (List.getElem?_mem hi)
    rcases op with delta | cf | cf
    · simp only [apply_drag_state, hk]
      by_cases hg : min (tf - 1) (w.stop + delta) - max 0 (w.start + delta)
          = w.stop - w.start
      · rw [if_pos hg]
        obtain ⟨fs, fe, heq, h1, h2, h3, h4⟩ := adjust_move_spec tf st.time_windows i w
          (max 0 (w.start + delta)) (min (tf - 1) (w.stop + delta)) hwf hi hfmw
          (le_max_left 0 _) (min_le_left _ _) hg
        rw [adjust_full_eq st.time_windows st.segments tf w.desc _ _ OpType.move hperm hdd,
          heq]
        dsimp only
        refine ⟨?_, (List.perm_insertionSort winStartLE _).symm⟩
        apply sync_windows_WF
        constructor
        · intro x hx
          rcases List.mem_or_eq_of_mem_set hx with hx2 | hx2
          · exact hwf.1 x (hperm.mem_iff.mp hx2)
          · subst hx2
            refine ⟨?_, ?_, ?_⟩
            · show 0 ≤ fs
              omega
            · show fs ≤ fe
              omega
            · show fe ≤ tf - 1
              omega
        · have hpseg : List.Pairwise winDisjoint st.segments :=
            (hperm.pairwise_iff (fun hab => Or.symm hab)).mpr hwf.2
          apply pairwise_winDisjoint_set st.segments k ⟨fs, fe, w.desc⟩ hpseg
          intro m sm hmk hsm
          have h5 := segs_others st.time_windows st.segments hperm hdd k w hk i hi fs fe
            (fun j wj hj hjw => by
              have h6 := h4 j wj hj hjw
              omega) m sm hmk hsm
          show fe < sm.start ∨ sm.stop < fs
          omega
      · rw [if_neg hg]
        exact ⟨hwf, hperm⟩
    · simp only [apply_drag_state, hk]
      obtain ⟨fs, heq, h1, h2, h3⟩ := adjust_rleft_spec tf st.time_windows i w
        (max 0 (min cf (w.stop - 1))) hwf hi hfmw (le_max_left 0 _) (by omega)
      rw [adjust_full_eq st.time_windows st.segments tf w.desc _ _ OpType.resize_left
        hperm hdd, heq]
      dsimp only
      refine ⟨?_, (List.perm_insertionSort winStartLE _).symm⟩
      apply sync_windows_WF
      constructor
      · intro x hx
        rcases List.mem_or_eq_of_mem_set hx with hx2 | hx2
        · exact hwf.1 x (hperm.mem_iff.mp hx2)
        · subst hx2
          refine ⟨?_, ?_, ?_⟩
          · show 0 ≤ fs
            omega
          · show fs ≤ w.stop
            omega
          · show w.stop ≤ tf - 1
            omega
      · have hpseg : List.Pairwise winDisjoint st.segments :=
          (hperm.pairwise_iff (fun hab => Or.symm hab)).mpr hwf.2
        apply pairwise_winDisjoint_set st.segments k ⟨fs, w.stop, w.desc⟩ hpseg
        intro m sm hmk hsm
        have h5 := segs_others st.time_windows st.segments hperm hdd k w hk i hi fs w.stop
          (fun j wj hj hjw => by
            have h6 := h3 j wj hj hjw
            omega) m sm hmk hsm
        show w.stop < sm.start ∨ sm.stop < fs
        omega
    · simp only [apply_drag_state, hk]
      obtain ⟨fe, heq, h1, h2, h3⟩ := adjust_rright_spec tf st.time_windows i w
        (min (tf - 1) (max cf (w.start + 1))) hwf hi hfmw (by omega) (min_le_left _ _)
      rw [adjust_full_eq st.time_windows st.segments tf w.desc _ _ OpType.resize_right
        hperm hdd, heq]
      dsimp only
      refine ⟨?_, (List.perm_insertionSort winStartLE _).symm⟩
      apply sync_windows_WF
      constructor
      · intro x hx
        rcases List.mem_or_eq_of_mem_set hx with hx2 | hx2
        · exact hwf.1 x (hperm.mem_iff.mp hx2)
        · subst hx2
          refine ⟨?_, ?_, ?_⟩
          · show 0 ≤ w.start
            omega
          · show w.start ≤ fe
            omega
          · show fe ≤ tf - 1
            omega
      · have hpseg : List.Pairwise winDisjoint st.segments :=
          (hperm.pairwise_iff (fun hab => Or.symm hab)).mpr hwf.2
        apply pairwise_winDisjoint_set st.segments k ⟨w.start, fe, w.desc⟩ hpseg
        intro m sm hmk hsm
        have h5 := segs_others st.time_windows st.segments hperm hdd k w hk i hi w.start fe
          (fun j wj hj hjw => by
            have h6 := h3 j wj hj hjw
            omega) m sm hmk hsm
        show fe < sm.start ∨ sm.stop < w.start
        omega

/-- The running maximum of the branch at lines 2168-2171 never drops below
its initial value `-1`. -/
theorem last_end_before_ge (tws : List TimeWindow) (cf : Int) :
    -1 ≤ last_end_before tws cf := by
  rw [last_end_before]
  suffices h : ∀ (acc : Int), acc ≤ tws.foldl
      (fun acc w => if w.stop < cf ∧ w.stop > acc then w.stop else acc) acc by
    exact h (-1)
  induction tws with
  | nil => intro acc; simp
  | cons w l ih =>
    intro acc
    rw [List.foldl_cons]
    refine le_trans ?_ (ih (if w.stop < cf ∧ w.stop > acc then w.stop else acc))
    split_ifs with h2
    · omega
    · omega

/-- On a well-formed non-empty list, the next available start of
`find_next_available_start` stays inside the frame range. -/
theorem find_next_available_start_bounds (tf : Int) (tws : List TimeWindow)
    (hwf : WindowsWF tf tws) (hne : tws ≠ []) :
    0 ≤ find_next_available_start tws tf ∧ find_next_available_start tws tf ≤ tf - 1 := by
  rw [find_next_available_start]
  rcases hS : List.insertionSort winStopLE tws with _ | ⟨w0, rest⟩
  · have hlen := (List.perm_insertionSort winStopLE tws).length_eq
    rw [hS] at hlen
    simp only [List.length_nil] at hlen
    exact absurd (List.length_eq_zero.mp hlen.symm) hne
  · simp only []
    have hlmem : (w0 :: rest).getLast (List.cons_ne_nil w0 rest) ∈ tws := by
      have h5 := List.getLast_mem (List.cons_ne_nil w0 rest)
      have hperm : (w0 :: rest).Perm tws := hS ▸ List.perm_insertionSort winStopLE tws
      exact hperm.mem_iff.mp h5
    have hlwf := hwf.1 _ hlmem
    by_cases hc : ((w0 :: rest).getLast (List.cons_ne_nil w0 rest)).stop + 1 ≥ tf
    · rw [if_pos hc]
      omega
    · rw [if_neg hc]
      omega

/-- The optimal end frame never exceeds the last frame when the start is in
range (lines 2246-2253). -/
theorem calculate_optimal_end_frame_le (tws : List TimeWindow) (dww tf s : Int)
    (hs : s ≤ tf - 1) : calculate_optimal_end_frame tws dww tf s ≤ tf - 1 := by
  simp only [calculate_optimal_end_frame]
  split_ifs with h <;> omega

/-- With the current frame in range, the extent proposed by
`add_time_window` lies inside the frame range. -/
theorem proposed_window_bounds (tf : Int) (tws : List TimeWindow) (cf dww s e : Int)
    (hwf : WindowsWF tf tws) (h0 : 0 ≤ cf) (h1 : cf ≤ tf - 1)
    (hp : proposed_window tws cf tf dww = some (s, e)) :
    0 ≤ s ∧ s ≤ e ∧ e ≤ tf - 1 := by
  have hse := proposed_window_le tws cf tf dww s e hp
  rw [proposed_window] at hp
  by_cases hin : current_frame_in_window tws cf
  · rw [if_pos hin] at hp
    have hne : tws ≠ [] := by
      rw [current_frame_in_window, List.any_eq_true] at hin
      obtain ⟨w, hw, -⟩ := hin
      exact List.ne_nil_of_mem hw
    have hfb := find_next_available_start_bounds tf tws hwf hne
    by_cases hg : find_next_available_start tws tf ≥ tf - 1
    · rw [if_pos hg] at hp
      exact absurd hp (by simp)
    · rw [if_neg hg] at hp
      rw [Option.some.injEq, Prod.mk.injEq] at hp
      obtain ⟨hs2, he2⟩ := hp
      have hcl := calculate_optimal_end_frame_le tws dww tf
        (find_next_available_start tws tf) (by omega)
      omega
  · rw [if_neg hin] at hp
    have hlast := last_end_before_ge tws cf
    by_cases hg : last_end_before tws cf + 1 > cf
    · rw [if_pos hg, Option.some.injEq, Prod.mk.injEq] at hp
      omega
    · rw [if_neg hg, Option.some.injEq, Prod.mk.injEq] at hp
      omega

/-- `add_time_window` preserves well-formedness: every failure path leaves
the list unchanged, and the append path passed the overlap double-check and
the range guards. -/
theorem add_time_window_WF (tf : Int) (tws : List TimeWindow) (cf : Int) (mw : Nat)
    (dww : Int) (hwf : WindowsWF tf tws) (h0 : 0 ≤ cf) (h1 : cf ≤ tf - 1) :
    WindowsWF tf (add_time_window tws cf tf mw dww) := by
  rw [add_time_window]
  by_cases hg : tws.length ≥ mw
  · rw [if_pos hg]
    exact hwf
  · rw [if_neg hg]
    rcases hp : proposed_window tws cf tf dww with _ | ⟨s, e⟩
    · exact hwf
    · simp only []
      have hb := proposed_window_bounds tf tws cf dww s e hwf h0 h1 hp
      rw [if_neg (by omega : ¬ e < s)]
      by_cases hchk : check_window_overlap tws s e = true
      · rw [if_pos (by rw [hchk])]
        exact hwf
      · have hchk2 : check_window_overlap tws s e = false :=
          Bool.eq_false_iff.mpr hchk
        rw [if_neg (by rw [hchk2]; simp)]
        constructor
        · intro x hx
          rcases List.mem_append.mp hx with hx2 | hx2
          · exact hwf.1 x hx2
          · rw [List.mem_singleton] at hx2
            subst hx2
            exact ⟨hb.1, hb.2.1, hb.2.2⟩
        · rw [List.pairwise_append]
          refine ⟨hwf.2, by simp, ?_⟩
          intro a ha b hb2
          rw [List.mem_singleton] at hb2
          subst hb2
          rw [check_window_overlap, List.any_eq_false] at hchk2
          have h5 := hchk2 a ha
          simp only [Bool.not_eq_true] at h5
          show a.stop < s ∨ e < a.start
          by_contra hcon
          rw [not_or] at hcon
          have h6 : ¬ (e < a.start) ∧ ¬ (s > a.stop) := by omega
          simp [h6.1, h6.2] at h5

/-- Every return path of `add_time_window` appends to the existing list:
the guards return it unchanged and the success path appends one window. -/
theorem add_time_window_append (tws : List TimeWindow) (cf tf : Int) (mw : Nat)
    (dww : Int) :
    ∃ tl : List TimeWindow, add_time_window tws cf tf mw dww = tws ++ tl := by
  rw [add_time_window]
  by_cases hg : tws.length ≥ mw
  · exact ⟨[], by rw [if_pos hg, List.append_nil]⟩
  · rw [if_neg hg]
    rcases hp : proposed_window tws cf tf dww with _ | ⟨s, e⟩
    · exact ⟨[], (List.append_nil tws).symm⟩
    · simp only []
      by_cases h1 : e < s
      · rw [if_pos h1]
        exact ⟨[], (List.append_nil tws).symm⟩
      · rw [if_neg h1]
        by_cases h2 : check_window_overlap tws s e = true
        · rw [if_pos (by rw [h2])]
          exact ⟨[], (List.append_nil tws).symm⟩
        · have h3 : check_window_overlap tws s e = false := Bool.eq_false_iff.mpr h2
          rw [if_neg (by rw [h3]; simp)]
          exact ⟨[⟨s, e, ""⟩], rfl⟩

/-- Adding a window on the paired state keeps the window list well-formed
and keeps the segments a permutation of it: `create_window_segment` appends
exactly the windows `add_time_window` appended. -/
theorem add_window_state_inv (tf : Int) (st : DragState) (cf : Int) (mw : Nat)
    (dww : Int) (hwf : WindowsWF tf st.time_windows)
    (hperm : st.segments.Perm st.time_windows) (h0 : 0 ≤ cf) (h1 : cf ≤ tf - 1) :
    WindowsWF tf (add_window_state st cf tf mw dww).time_windows ∧
    (add_window_state st cf tf mw dww).segments.Perm
      (add_window_state st cf tf mw dww).time_windows := by
  obtain ⟨tl, htl⟩ := add_time_window_append st.time_windows cf tf mw dww
  constructor
  · show WindowsWF tf (add_time_window st.time_windows cf tf mw dww)
    exact add_time_window_WF tf st.time_windows cf mw dww hwf h0 h1
  · show (st.segments ++
        (add_time_window st.time_windows cf tf mw dww).drop st.time_windows.length).Perm
      (add_time_window st.time_windows cf tf mw dww)
    rw [htl, List.drop_left]
    exact hperm.append_right tl

/-- Every state reachable through adds and distinct-description drags keeps
its window list well-formed and its segments a permutation of the window
list. -/
theorem ReachableSegDD_inv (tf : Int) (st : DragState) (h : ReachableSegDD tf st) :
    WindowsWF tf st.time_windows ∧ st.segments.Perm st.time_windows := by
  induction h with
  | empty => exact ⟨⟨by simp, List.Pairwise.nil⟩, List.Perm.nil⟩
  | add st2 cf h2 h0 h1 ih => exact add_window_state_inv tf st2 cf 20 50 ih.1 ih.2 h0 h1
  | drag st2 k op h2 hdd ih => exact apply_drag_state_WF tf st2 k op ih.1 ih.2 hdd

/-- C1 counterexample: the no-overlap invariant fails for states reachable
through `add_time_window` and complete segment drags as the code stands.
Two adds produce `[0,0,""]` and `[1,99,""]` (both with the empty description
`add_time_window` assigns); dragging the second segment's left edge to
frame 0 makes the adjuster match the *first* window by description
(lines 1043-1046), so no neighbour clamp fires and the state becomes
`[0,0,""]`, `[0,99,""]`, whose ranges intersect. -/
theorem C1_no_overlap_counterexample :
    ReachableSegAny 100 ⟨[⟨0, 0, ""⟩, ⟨0, 99, ""⟩], [⟨0, 0, ""⟩, ⟨0, 99, ""⟩]⟩ ∧
    ¬ ((⟨0, 0, ""⟩ : TimeWindow).stop < (⟨0, 99, ""⟩ : TimeWindow).start ∨
       (⟨0, 0, ""⟩ : TimeWindow).start > (⟨0, 99, ""⟩ : TimeWindow).stop) := by
  constructor
  · have h1 := ReachableSegAny.add ⟨[], []⟩ 0
      (ReachableSegAny.empty : ReachableSegAny 100 ⟨[], []⟩) (by decide) (by decide)
    rw [show add_window_state ⟨[], []⟩ 0 100 20 50 = ⟨[⟨0, 0, ""⟩], [⟨0, 0, ""⟩]⟩
      from by decide] at h1
    have h2 := ReachableSegAny.add ⟨[⟨0, 0, ""⟩], [⟨0, 0, ""⟩]⟩ 99 h1 (by decide) (by decide)
    rw [show add_window_state ⟨[⟨0, 0, ""⟩], [⟨0, 0, ""⟩]⟩ 99 100 20 50
      = ⟨[⟨0, 0, ""⟩, ⟨1, 99, ""⟩], [⟨0, 0, ""⟩, ⟨1, 99, ""⟩]⟩ from by decide] at h2
    have h3 := ReachableSegAny.drag ⟨[⟨0, 0, ""⟩, ⟨1, 99, ""⟩], [⟨0, 0, ""⟩, ⟨1, 99, ""⟩]⟩ 1
      (DragOp.rleft 0) h2
    rw [show apply_drag_state ⟨[⟨0, 0, ""⟩, ⟨1, 99, ""⟩], [⟨0, 0, ""⟩, ⟨1, 99, ""⟩]⟩ 100 1
      (DragOp.rleft 0) = ⟨[⟨0, 0, ""⟩, ⟨0, 99, ""⟩], [⟨0, 0, ""⟩, ⟨0, 99, ""⟩]⟩
      from by decide] at h3
    exact h3
  · decide

/-- C1 amended: for every state reachable from the empty state through
`add_time_window` and through complete segment drags each of which starts
from a state with pairwise distinct window descriptions (so the adjuster's
window lookup and the neighbour-segment write are both unambiguous), no two
distinct windows' ranges intersect: `end_i < start_j or start_i > end_j`. -/
theorem C1_no_overlap_amended (tf : Int) (st : DragState) (h : ReachableSegDD tf st)
    (i j : Nat) (wi wj : TimeWindow) (hij : i ≠ j)
    (hwi : st.time_windows[i]? = some wi) (hwj : st.time_windows[j]? = some wj) :
    wi.stop < wj.start ∨ wi.start > wj.stop := by
  have hwf := (ReachableSegDD_inv tf st h).1
  have hp := hwf.2
  rw [List.pairwise_iff_getElem] at hp
  obtain ⟨hi2, hi3⟩ := List.getElem?_eq_some.mp hwi
  obtain ⟨hj2, hj3⟩ := List.getElem?_eq_some.mp hwj
  rcases Nat.lt_or_ge i j with hlt | hge
  · have h5 := hp i j hi2 hj2 hlt
    rw [hi3, hj3] at h5
    unfold winDisjoint at h5
    show wi.stop < wj.start ∨ wj.stop < wi.start
    omega
  · have hlt2 : j < i := by omega
    have h5 := hp j i hj2 hi2 hlt2
    rw [hi3, hj3] at h5
    unfold winDisjoint at h5
    show wi.stop < wj.start ∨ wj.stop < wi.start
    omega

/-- C1 witness: a state reached through an add, a genuine
distinct-description drag (the single window's right edge pulled to
frame 20) and a second add has disjoint windows. -/
theorem C1_no_overlap_amended_witness :
    (⟨0, 20, ""⟩ : TimeWindow).stop < (⟨21, 99, ""⟩ : TimeWindow).start ∨
    (⟨0, 20, ""⟩ : TimeWindow).start > (⟨21, 99, ""⟩ : TimeWindow).stop := by
  have h1 := ReachableSegDD.add ⟨[], []⟩ 10
    (ReachableSegDD.empty : ReachableSegDD 100 ⟨[], []⟩) (by decide) (by decide)
  rw [show add_window_state ⟨[], []⟩ 10 100 20 50 = ⟨[⟨0, 10, ""⟩], [⟨0, 10, ""⟩]⟩
    from by decide] at h1
  have h2 := ReachableSegDD.drag ⟨[⟨0, 10, ""⟩], [⟨0, 10, ""⟩]⟩ 0 (DragOp.rright 20) h1
    (by decide)
  rw [show apply_drag_state ⟨[⟨0, 10, ""⟩], [⟨0, 10, ""⟩]⟩ 100 0 (DragOp.rright 20)
    = ⟨[⟨0, 20, ""⟩], [⟨0, 20, ""⟩]⟩ from by decide] at h2
  have h3 := ReachableSegDD.add ⟨[⟨0, 20, ""⟩], [⟨0, 20, ""⟩]⟩ 99 h2 (by decide) (by decide)
  rw [show add_window_state ⟨[⟨0, 20, ""⟩], [⟨0, 20, ""⟩]⟩ 99 100 20 50
    = ⟨[⟨0, 20, ""⟩, ⟨21, 99, ""⟩], [⟨0, 20, ""⟩, ⟨21, 99, ""⟩]⟩ from by decide] at h3
  exact C1_no_overlap_amended 100 ⟨[⟨0, 20, ""⟩, ⟨21, 99, ""⟩], [⟨0, 20, ""⟩, ⟨21, 99, ""⟩]⟩
    h3 0 1 ⟨0, 20, ""⟩ ⟨21, 99, ""⟩ (by decide) (by decide) (by decide)

/-- C4 counterexample: idempotence fails for a member window when another
window shares its description. In the disjoint, in-range state
`[0,9,""]`, `[20,29,""]`, proposing the second window's own extent `(20,29)`
in move mode returns `(10,19)` — the adjuster matches the first window by
description and treats the second as its next neighbour — so the call is not
a no-op even though the proposed extent is the window's current extent. -/
theorem C4_idempotence_counterexample :
    adjust_window_boundaries_smart [⟨0, 9, ""⟩, ⟨20, 29, ""⟩] 100 "" 20 29 OpType.move
      = ((10, 19), [⟨0, 9, ""⟩, ⟨20, 29, ""⟩]) ∧
    ((10 : Int), (19 : Int)) ≠ ((20 : Int), (29 : Int)) ∧
    [(⟨0, 9, ""⟩ : TimeWindow), ⟨20, 29, ""⟩][1]? = some ⟨20, 29, ""⟩ ∧
    WindowsWF 100 [⟨0, 9, ""⟩, ⟨20, 29, ""⟩] :=
  ⟨by decide, by decide, by decide, by decide, by decide⟩

/-- C4 amended: the adjuster applied to a member window with the window's
own current extent is a no-op — it returns that same extent and leaves every
window unchanged — provided the window set is well-formed and the window is
the first `time_windows` entry carrying its description (in particular when
descriptions are pairwise distinct). -/
theorem C4_idempotence_amended (tf : Int) (tws : List TimeWindow) (i : Nat) (w : TimeWindow)
    (op : OpType) (hwf : WindowsWF tf tws) (hi : tws[i]? = some w)
    (hfm : tws.findIdx? (fun x => x.desc == w.desc) = some i) :
    adjust_window_boundaries_smart tws tf w.desc w.start w.stop op
      = ((w.start, w.stop), tws) := by
  obtain ⟨csi, hfind, hcsi⟩ := adjust_ctx tws i w hi
  have hwwf := hwf.1 w (List.getElem?_mem hi)
  have hcsilt : csi < (List.insertionSort startOrder tws.enum).length :=
    (List.getElem?_eq_some.mp hcsi).1
  rw [adjust_window_boundaries_smart]
  rw [hfm]
  simp only []
  rw [hfind]
  rcases op with _ | _ | _
  · by_cases hpos : 0 < csi
    · have hpm1 : csi - 1 < (List.insertionSort startOrder tws.enum).length := by omega
      obtain ⟨pv, hpv⟩ : ∃ pv, (List.insertionSort startOrder tws.enum)[csi - 1]? = some pv :=
        ⟨_, List.getElem?_eq_getElem hpm1⟩
      have hpvw : pv.2.stop < w.start :=
        sortedEnum_chain tf tws hwf (csi - 1) csi pv (i, w) hpv hcsi (by omega)
      simp only [if_pos hpos, hpv]
      rw [if_neg (by omega : ¬ w.start ≤ pv.2.stop)]
      rcases hnx : (List.insertionSort startOrder tws.enum)[csi + 1]? with _ | nx
      · simp only [hnx]
        rw [if_neg (by omega : ¬ w.start < 0), if_neg (by omega : ¬ w.stop ≥ tf)]
      · have hnxw : w.stop < nx.2.start :=
          sortedEnum_chain tf tws hwf csi (csi + 1) (i, w) nx hcsi hnx (by omega)
        simp only [hnx]
        rw [if_neg (by omega : ¬ w.stop ≥ nx.2.start)]
        rw [if_neg (by omega : ¬ w.start < 0), if_neg (by omega : ¬ w.stop ≥ tf)]
    · simp only [if_neg hpos]
      rcases hnx : (List.insertionSort startOrder tws.enum)[csi + 1]? with _ | nx
      · simp only [hnx]
        rw [if_neg (by omega : ¬ w.start < 0), if_neg (by omega : ¬ w.stop ≥ tf)]
      · have hnxw : w.stop < nx.2.start :=
          sortedEnum_chain tf tws hwf csi (csi + 1) (i, w) nx hcsi hnx (by omega)
        simp only [hnx]
        rw [if_neg (by omega : ¬ w.stop ≥ nx.2.start)]
        rw [if_neg (by omega : ¬ w.start < 0), if_neg (by omega : ¬ w.stop ≥ tf)]
  · by_cases hpos : 0 < csi
    · have hpm1 : csi - 1 < (List.insertionSort startOrder tws.enum).length := by omega
      obtain ⟨pv, hpv⟩ : ∃ pv, (List.insertionSort startOrder tws.enum)[csi - 1]? = some pv :=
        ⟨_, List.getElem?_eq_getElem hpm1⟩
      have hpvw : pv.2.stop < w.start :=
        sortedEnum_chain tf tws hwf (csi - 1) csi pv (i, w) hpv hcsi (by omega)
      simp only [if_pos hpos, hpv]
      rw [if_neg (by omega : ¬ w.start ≤ pv.2.stop)]
    · simp only [if_neg hpos]
  · rcases hnx : (List.insertionSort startOrder tws.enum)[csi + 1]? with _ | nx
    · simp only [hnx]
    · have hnxw : w.stop < nx.2.start :=
        sortedEnum_chain tf tws hwf csi (csi + 1) (i, w) nx hcsi hnx (by omega)
      simp only [hnx]
      rw [if_neg (by omega : ¬ w.stop ≥ nx.2.start)]

/-- C4 witness: with distinct descriptions, proposing a window's own extent
is a no-op for every operation mode. -/
theorem C4_idempotence_amended_witness :
    adjust_window_boundaries_smart [⟨0, 9, "a"⟩, ⟨20, 29, "b"⟩] 100 "b" 20 29 OpType.move
      = ((20, 29), [⟨0, 9, "a"⟩, ⟨20, 29, "b"⟩]) :=
  C4_idempotence_amended 100 [⟨0, 9, "a"⟩, ⟨20, 29, "b"⟩] 1 ⟨20, 29, "b"⟩ OpType.move
    ⟨by decide, by decide⟩ (by decide) (by decide)
